import Mathlib

/-!
# Verification of the `nrt` stability-fitting engine

Shallow embedding in Lean 4 of the code in `src/nrt/stability.py` and
`src/nrt/outliers.py`, together with theorems settling the specification
claims about it.

Conventions used throughout:

* numpy's `NaN` missing sentinel is modelled as `none : Option ℚ`; any
  comparison whose operand is `none` is `false`, matching IEEE semantics of
  comparisons with `NaN`.
* 2-D arrays whose columns are independent pixel series are modelled as a
  `List` of columns, each column a `List (Option ℚ)` over the time axis.
* floating point arithmetic is modelled by exact rational arithmetic; a
  comparison `x / sqrt m < t` (whose value is irrational) is encoded by the
  decidable `ltDivSqrt` below, proved equivalent to the real-number
  comparison by `ltDivSqrt_iff`.
* `nrt.fit_methods` (the Regression Provider) is not part of the sources;
  its `ols` entry point is modelled from the spec, see `olsBeta` below.
-/

namespace Nrt

/-! ## Encoding of `x / sqrt m < t` over the rationals

`ltDivSqrt a m t` decides `a / sqrt m < t` for `0 < m` (see `ltDivSqrt_iff`).
For `m = 0` it also reproduces the IEEE float behaviour of `a / 0.0 < t`
(`-inf < t` is true, `+inf < t` and `NaN < t` are false) which is what
numpy computes when the RMSE of a column is zero. -/

def ltDivSqrt (a m t : ℚ) : Bool :=
  if 0 ≤ t then decide (a < 0) || decide (a ^ 2 < t ^ 2 * m)
  else decide (a < 0) && decide (t ^ 2 * m < a ^ 2)

theorem ltDivSqrt_iff (a m t : ℚ) (hm : 0 < m) :
    ltDivSqrt a m t = true ↔ (a : ℝ) / Real.sqrt (m : ℚ) < (t : ℚ) := by
  have hmR : (0 : ℝ) < (m : ℚ) := by exact_mod_cast hm
  have hs : 0 < Real.sqrt (m : ℚ) := Real.sqrt_pos.2 hmR
  rw [div_lt_iff₀ hs]
  unfold ltDivSqrt
  split_ifs with ht
  · have htR : (0 : ℝ) ≤ (t : ℚ) := by exact_mod_cast ht
    have hsq : (t : ℝ) * Real.sqrt (m : ℚ) = Real.sqrt ((t ^ 2 * m : ℚ) : ℝ) := by
      push_cast
      rw [Real.sqrt_mul (by positivity), Real.sqrt_sq htR]
    simp only [Bool.or_eq_true, decide_eq_true_eq]
    constructor
    · rintro (h | h)
      · have : (a : ℝ) < 0 := by exact_mod_cast h
        exact this.trans_le (by positivity)
      · rcases lt_or_le a 0 with ha | ha
        · have : (a : ℝ) < 0 := by exact_mod_cast ha
          exact this.trans_le (by positivity)
        · have haR : (0 : ℝ) ≤ (a : ℚ) := by exact_mod_cast ha
          rw [hsq]
          exact (Real.lt_sqrt haR).2 (by exact_mod_cast h)
    · intro h
      rcases lt_or_le a 0 with ha | ha
      · exact Or.inl ha
      · refine Or.inr ?_
        have haR : (0 : ℝ) ≤ (a : ℚ) := by exact_mod_cast ha
        rw [hsq] at h
        have := (Real.lt_sqrt haR).1 h
        exact_mod_cast this
  · push_neg at ht
    have htR : (t : ℝ) < 0 := by exact_mod_cast ht
    have hneg : (-t : ℝ) * Real.sqrt (m : ℚ) = Real.sqrt ((t ^ 2 * m : ℚ) : ℝ) := by
      push_cast
      rw [show ((t : ℝ)) ^ 2 = (-(t : ℝ)) ^ 2 by ring,
        Real.sqrt_mul (by positivity), Real.sqrt_sq (by linarith)]
    have hkey : ∀ x : ℝ, (x < (t : ℚ) * Real.sqrt (m : ℚ) ↔
        Real.sqrt ((t ^ 2 * m : ℚ) : ℝ) < -x) := by
      intro x
      rw [← hneg]
      constructor
      · intro h; nlinarith [Real.sqrt_nonneg ((m : ℚ) : ℝ)]
      · intro h; nlinarith [Real.sqrt_nonneg ((m : ℚ) : ℝ)]
    simp only [Bool.and_eq_true, decide_eq_true_eq]
    rw [hkey]
    constructor
    · rintro ⟨ha, h2⟩
      have haR : (0 : ℝ) < -(a : ℚ) := by
        have : (a : ℝ) < 0 := by exact_mod_cast ha
        linarith
      refine (Real.sqrt_lt' haR).2 ?_
      have : ((t ^ 2 * m : ℚ) : ℝ) < ((a ^ 2 : ℚ) : ℝ) := by exact_mod_cast h2
      push_cast at this ⊢
      nlinarith
    · intro h
      have hx : Real.sqrt ((t ^ 2 * m : ℚ) : ℝ) ≥ 0 := Real.sqrt_nonneg _
      have haR : (a : ℝ) < 0 := by linarith
      have ha : a < 0 := by exact_mod_cast haR
      refine ⟨ha, ?_⟩
      have haR2 : (0 : ℝ) < -(a : ℚ) := by push_cast; linarith
      have h3 := (Real.sqrt_lt' haR2).1 h
      have h4 : ((t ^ 2 * m : ℚ) : ℝ) < ((a ^ 2 : ℚ) : ℝ) := by
        push_cast at h3 ⊢
        nlinarith
      exact_mod_cast h4

/-! ## Stability Predicate — `is_stable_ccdc` (stability.py, lines 104-131)

The source computes, column-wise over a residual matrix,
`rmse = sqrt(nanmean(residuals ** 2, axis=0))` and then
`slope/rmse < t  &  residuals[0,:]/rmse < t  &  residuals[-1,:]/rmse < t`.
A column whose residuals are all missing yields `rmse = NaN`, so all three
comparisons are false. -/

/-- The residuals of a column that are not the missing sentinel, in order
(what `nanmean` aggregates over). -/
def validResiduals (col : List (Option ℚ)) : List ℚ := col.filterMap id

/-- Mean of squared residuals of a column, ignoring missing entries:
`nanmean(residuals ** 2)` for one column.  (`rmse` is its square root.) -/
def nanMeanSq (col : List (Option ℚ)) : ℚ :=
  ((validResiduals col).map (fun r => r ^ 2)).sum / ((validResiduals col).length : ℚ)

/-- Comparison `r / rmse < t` for a possibly missing residual `r`; a missing
operand makes the float comparison false. -/
def optLtDivSqrt (m t : ℚ) : Option ℚ → Bool
  | none => false
  | some r => ltDivSqrt r m t

/-- One column of `is_stable_ccdc` (stability.py lines 125-131): stable iff
`slope/rmse < t` and `residuals[0]/rmse < t` and `residuals[-1]/rmse < t`,
with `rmse = sqrt (nanMeanSq col)`.  If every residual of the column is
missing, `rmse` is `NaN` and the column is not stable. -/
def is_stable_ccdc_col (slope : ℚ) (col : List (Option ℚ)) (threshold : ℚ) : Bool :=
  if validResiduals col = [] then false
  else
    ltDivSqrt slope (nanMeanSq col) threshold
      && optLtDivSqrt (nanMeanSq col) threshold (col.headD none)
      && optLtDivSqrt (nanMeanSq col) threshold (col.getLastD none)

/-- Vectorised `is_stable_ccdc`: the source operates on a 2-D residual array
(rows = time, columns = pixels); here the matrix is given as the list of its
columns. -/
def is_stable_ccdc (slope : List ℚ) (residuals : List (List (Option ℚ)))
    (threshold : ℚ) : List Bool :=
  List.zipWith (fun s col => is_stable_ccdc_col s col threshold) slope residuals

/-- C1, counterexample.  The claim says `is_stable_ccdc` marks a column stable
iff `|slope|/rmse < t`, `|residual at first valid row|/rmse < t` and
`|residual at last valid row|/rmse < t` all hold.  Two concrete inputs refute
this.  First input: `slope = -4`, residuals `[1, 1]`, `t = 3` (so `rmse = 1`):
the code marks the column stable although `|slope|/rmse < t` fails — the code
compares the signed slope, not its absolute value.  Second input: `slope = 0`,
residuals `[NaN, 1, -1]`, `t = 3` (so `rmse = 1`, first valid residual `1`,
last valid residual `-1`): all three of the claim's tests hold, yet the code
marks the column not stable, because it tests the residual at the first row
(missing, hence a false comparison), not at the first valid row. -/
theorem is_stable_ccdc_col_claim_false :
    (is_stable_ccdc_col (-4) [some 1, some 1] 3 = true ∧
      ¬ (|((-4 : ℚ) : ℝ)| / Real.sqrt ((nanMeanSq [some 1, some 1] : ℚ) : ℝ)
            < ((3 : ℚ) : ℝ))) ∧
    (is_stable_ccdc_col 0 [none, some 1, some (-1)] 3 = false ∧
      validResiduals [none, some 1, some (-1)] = [1, -1] ∧
      |((0 : ℚ) : ℝ)| / Real.sqrt ((nanMeanSq [none, some 1, some (-1)] : ℚ) : ℝ)
          < ((3 : ℚ) : ℝ) ∧
      |((1 : ℚ) : ℝ)| / Real.sqrt ((nanMeanSq [none, some 1, some (-1)] : ℚ) : ℝ)
          < ((3 : ℚ) : ℝ) ∧
      |((-1 : ℚ) : ℝ)| / Real.sqrt ((nanMeanSq [none, some 1, some (-1)] : ℚ) : ℝ)
          < ((3 : ℚ) : ℝ)) := by
  have hmA : nanMeanSq [some 1, some 1] = 1 := by
    norm_num [nanMeanSq, validResiduals, List.filterMap_cons]
  have hmB : nanMeanSq [none, some 1, some (-1)] = 1 := by
    norm_num [nanMeanSq, validResiduals, List.filterMap_cons]
  refine ⟨⟨?_, ?_⟩, ?_, ?_, ?_, ?_, ?_⟩
  · norm_num [is_stable_ccdc_col, ltDivSqrt, optLtDivSqrt, nanMeanSq, validResiduals,
      List.filterMap_cons] <;> simp
  · rw [hmA]
    norm_num [Real.sqrt_one, abs_of_nonpos]
  · norm_num [is_stable_ccdc_col, ltDivSqrt, optLtDivSqrt, nanMeanSq, validResiduals,
      List.filterMap_cons] <;> simp
  · norm_num [validResiduals, List.filterMap_cons]
  · rw [hmB]
    norm_num [Real.sqrt_one]
  · rw [hmB]
    norm_num [Real.sqrt_one]
  · rw [hmB]
    norm_num [Real.sqrt_one, abs_of_nonpos]

/-- C1, amended: for any threshold, slope and residual column whose first and
last entries are present and whose mean squared residual is positive,
`is_stable_ccdc` marks the column stable iff the three *signed* tests
`slope/rmse < t`, `(residual at first row)/rmse < t` and
`(residual at last row)/rmse < t` all hold (no absolute values; a missing
first or last residual, or a column with no valid residual, is never stable);
`rmse` is the square root of the mean of squared residuals ignoring missing
entries. -/
theorem is_stable_ccdc_col_signed_iff (slope t : ℚ) (col : List (Option ℚ))
    (r0 rL : ℚ) (h0 : col.headD none = some r0) (hL : col.getLastD none = some rL)
    (hm : 0 < nanMeanSq col) :
    is_stable_ccdc_col slope col t = true ↔
      ((slope : ℝ) / Real.sqrt ((nanMeanSq col : ℚ) : ℝ) < ((t : ℚ) : ℝ) ∧
       (r0 : ℝ) / Real.sqrt ((nanMeanSq col : ℚ) : ℝ) < ((t : ℚ) : ℝ) ∧
       (rL : ℝ) / Real.sqrt ((nanMeanSq col : ℚ) : ℝ) < ((t : ℚ) : ℝ)) := by
  have hne : ¬ validResiduals col = [] := by
    intro h
    rw [nanMeanSq, h] at hm
    norm_num at hm
  rw [is_stable_ccdc_col, if_neg hne, h0, hL]
  simp only [optLtDivSqrt, Bool.and_eq_true]
  rw [ltDivSqrt_iff _ _ _ hm, ltDivSqrt_iff _ _ _ hm, ltDivSqrt_iff _ _ _ hm]
  tauto

/-- Witness for `is_stable_ccdc_col_signed_iff` at slope `1`, residuals
`[1, 1]`, threshold `3`. -/
theorem is_stable_ccdc_col_signed_iff_witness :
    is_stable_ccdc_col 1 [some 1, some 1] 3 = true ↔
      (((1 : ℚ) : ℝ) / Real.sqrt ((nanMeanSq [some 1, some 1] : ℚ) : ℝ) < ((3 : ℚ) : ℝ) ∧
       ((1 : ℚ) : ℝ) / Real.sqrt ((nanMeanSq [some 1, some 1] : ℚ) : ℝ) < ((3 : ℚ) : ℝ) ∧
       ((1 : ℚ) : ℝ) / Real.sqrt ((nanMeanSq [some 1, some 1] : ℚ) : ℝ) < ((3 : ℚ) : ℝ)) :=
  is_stable_ccdc_col_signed_iff 1 3 [some 1, some 1] 1 1 (by rfl) (by rfl)
    (by norm_num [nanMeanSq, validResiduals, List.filterMap_cons])

/-! ## Recursive Residual Engine — `recresid` (stability.py, lines 135-169)

`recresid(X, y, span)` fits OLS by explicit normal equations on the first
`span` rows, then processes each further row by a rank-one Sherman–Morrison
update of the inverse Gram matrix `M` and of the coefficient vector `beta`.
The design matrix is modelled as a sequence of rows `X : ℕ → Fin p → ℚ` and
the dependent variable as `y : ℕ → ℚ` (no missing values are permitted
here). -/

open Matrix

/-- Gram matrix `XᵀX` of the first `m` rows of the design matrix. -/
def gram {p : ℕ} (X : ℕ → Fin p → ℚ) (m : ℕ) : Matrix (Fin p) (Fin p) ℚ :=
  ∑ i ∈ Finset.range m, vecMulVec (X i) (X i)

/-- Moment vector `Xᵀy` of the first `m` rows. -/
def xty {p : ℕ} (X : ℕ → Fin p → ℚ) (y : ℕ → ℚ) (m : ℕ) : Fin p → ℚ :=
  ∑ i ∈ Finset.range m, y i • X i

/-- Executable matrix inverse (total stand-in for `np.linalg.inv`; on a
singular input, where numpy raises `LinAlgError`, it returns the zero
matrix). -/
def matInv {p : ℕ} (A : Matrix (Fin p) (Fin p) ℚ) : Matrix (Fin p) (Fin p) ℚ :=
  if A.det = 0 then 0 else A.det⁻¹ • A.adjugate

/-- Running state of the `recresid` loop: the inverse Gram matrix `XTX_j`
and the coefficient vector `beta` of the source. -/
structure RLS (p : ℕ) where
  M : Matrix (Fin p) (Fin p) ℚ
  beta : Fin p → ℚ

/-- Initial fit on rows `[0, span)` (stability.py lines 144-147):
`M = inv(X0ᵀ X0)`, `beta = M (X0ᵀ y0)`. -/
def rlsInit {p : ℕ} (X : ℕ → Fin p → ℚ) (y : ℕ → ℚ) (span : ℕ) : RLS p :=
  { M := matInv (gram X span)
    beta := (matInv (gram X span)).mulVec (xty X y span) }

/-- One iteration of the update loop (stability.py lines 153-167):
`g = M xᵀ`, `f = 1 + x g`, `M ← M − (g gᵀ)/f`, `beta ← beta + g r / f` with
the one-step residual `r = yj − x·beta` computed before the update. -/
def rlsStep {p : ℕ} (x : Fin p → ℚ) (yj : ℚ) (s : RLS p) : RLS p :=
  let g := s.M.mulVec x
  let f := 1 + x ⬝ᵥ g
  { M := s.M - f⁻¹ • vecMulVec g g
    beta := s.beta + (f⁻¹ * (yj - x ⬝ᵥ s.beta)) • g }

/-- State of the loop after processing rows `span, …, span + k - 1`; in the
source's indexing, the state after the body has run for row `j` is
`rlsIter X y span (j + 1 - span)`. -/
def rlsIter {p : ℕ} (X : ℕ → Fin p → ℚ) (y : ℕ → ℚ) (span : ℕ) : ℕ → RLS p
  | 0 => rlsInit X y span
  | k + 1 => rlsStep (X (span + k)) (y (span + k)) (rlsIter X y span k)

/-- Positivity of the quadratic form on nonzero vectors.  For the Gram
matrix of a window this says exactly that the window's rows have full
column rank — the condition under which `np.linalg.inv` in the initial fit
of `recresid` succeeds. -/
def PosDefQ {p : ℕ} (A : Matrix (Fin p) (Fin p) ℚ) : Prop :=
  ∀ v : Fin p → ℚ, v ≠ 0 → 0 < v ⬝ᵥ A.mulVec v

theorem vecMulVec_transpose_eq {p : ℕ} (a b : Fin p → ℚ) :
    (vecMulVec a b)ᵀ = vecMulVec b a := by
  ext i j
  simp [Matrix.vecMulVec_apply, Matrix.transpose_apply, mul_comm]

theorem mul_vecMulVec_eq {p : ℕ} (A : Matrix (Fin p) (Fin p) ℚ) (b c : Fin p → ℚ) :
    A * vecMulVec b c = vecMulVec (A.mulVec b) c := by
  ext i j
  simp only [Matrix.mul_apply, Matrix.vecMulVec_apply, Matrix.mulVec, dotProduct,
    Finset.sum_mul]
  exact Finset.sum_congr rfl fun k _ => by ring

theorem vecMulVec_mul_eq {p : ℕ} (a b : Fin p → ℚ) (C : Matrix (Fin p) (Fin p) ℚ) :
    vecMulVec a b * C = vecMulVec a (Cᵀ.mulVec b) := by
  ext i j
  simp only [Matrix.mul_apply, Matrix.vecMulVec_apply, Matrix.mulVec, dotProduct,
    Matrix.transpose_apply, Finset.mul_sum]
  exact Finset.sum_congr rfl fun k _ => by ring

theorem vecMulVec_mulVec_eq {p : ℕ} (a b v : Fin p → ℚ) :
    (vecMulVec a b).mulVec v = (b ⬝ᵥ v) • a := by
  ext i
  simp only [Matrix.mulVec, dotProduct, Matrix.vecMulVec_apply, Pi.smul_apply,
    smul_eq_mul, Finset.sum_mul]
  exact Finset.sum_congr rfl fun k _ => by ring

theorem gram_transpose {p : ℕ} (X : ℕ → Fin p → ℚ) (m : ℕ) :
    (gram X m)ᵀ = gram X m := by
  unfold gram
  rw [Matrix.transpose_sum]
  exact Finset.sum_congr rfl fun i _ => vecMulVec_transpose_eq _ _

theorem gram_succ {p : ℕ} (X : ℕ → Fin p → ℚ) (m : ℕ) :
    gram X (m + 1) = gram X m + vecMulVec (X m) (X m) :=
  Finset.sum_range_succ _ m

theorem xty_succ {p : ℕ} (X : ℕ → Fin p → ℚ) (y : ℕ → ℚ) (m : ℕ) :
    xty X y (m + 1) = xty X y m + y m • X m :=
  Finset.sum_range_succ _ m

theorem posDefQ_det_ne_zero {p : ℕ} {A : Matrix (Fin p) (Fin p) ℚ}
    (h : PosDefQ A) : A.det ≠ 0 := by
  intro hdet
  obtain ⟨v, hv, hAv⟩ := (Matrix.exists_mulVec_eq_zero_iff).2 hdet
  have := h v hv
  rw [hAv] at this
  simp [dotProduct] at this

theorem matInv_eq_nonsing_inv {p : ℕ} {A : Matrix (Fin p) (Fin p) ℚ}
    (h : A.det ≠ 0) : matInv A = A⁻¹ := by
  rw [matInv, if_neg h, Matrix.inv_def, Ring.inverse_eq_inv]

theorem matInv_mul_self {p : ℕ} {A : Matrix (Fin p) (Fin p) ℚ}
    (h : A.det ≠ 0) : matInv A * A = 1 := by
  rw [matInv_eq_nonsing_inv h]
  exact Matrix.nonsing_inv_mul A (isUnit_iff_ne_zero.2 h)

theorem self_mul_matInv {p : ℕ} {A : Matrix (Fin p) (Fin p) ℚ}
    (h : A.det ≠ 0) : A * matInv A = 1 := by
  rw [matInv_eq_nonsing_inv h]
  exact Matrix.mul_nonsing_inv A (isUnit_iff_ne_zero.2 h)

/-- Loop invariant tying the running state of `recresid` after `m` rows to
the batch normal equations on those rows: the Gram matrix is positive
definite, `M` is its two-sided inverse and is symmetric, and `beta` solves
the batch normal equations. -/
structure RLSInv {p : ℕ} (X : ℕ → Fin p → ℚ) (y : ℕ → ℚ) (m : ℕ) (s : RLS p) : Prop where
  posdef : PosDefQ (gram X m)
  left : s.M * gram X m = 1
  right : gram X m * s.M = 1
  symm : s.Mᵀ = s.M
  normal : (gram X m).mulVec s.beta = xty X y m

theorem rlsInit_inv {p : ℕ} (X : ℕ → Fin p → ℚ) (y : ℕ → ℚ) (span : ℕ)
    (hPD : PosDefQ (gram X span)) : RLSInv X y span (rlsInit X y span) := by
  have hdet : (gram X span).det ≠ 0 := posDefQ_det_ne_zero hPD
  refine ⟨hPD, matInv_mul_self hdet, self_mul_matInv hdet, ?_, ?_⟩
  · show (matInv (gram X span))ᵀ = matInv (gram X span)
    rw [matInv_eq_nonsing_inv hdet, Matrix.transpose_nonsing_inv, gram_transpose]
  · show (gram X span).mulVec ((matInv (gram X span)).mulVec (xty X y span)) = _
    rw [Matrix.mulVec_mulVec, self_mul_matInv hdet, Matrix.one_mulVec]

theorem vecMulVec_smul_right {p : ℕ} (a b : Fin p → ℚ) (c : ℚ) :
    vecMulVec a (c • b) = c • vecMulVec a b := by
  ext i j
  simp [Matrix.vecMulVec_apply, mul_comm, mul_left_comm]

/-- The Sherman–Morrison step of `recresid` preserves the batch-fit
invariant: if the state after `m` rows inverts the Gram matrix of those
rows and solves their normal equations, the updated state does the same for
`m + 1` rows. -/
theorem rlsStep_inv {p : ℕ} (X : ℕ → Fin p → ℚ) (y : ℕ → ℚ) (m : ℕ) (s : RLS p)
    (h : RLSInv X y m s) : RLSInv X y (m + 1) (rlsStep (X m) (y m) s) := by
  have hg : (rlsStep (X m) (y m) s).M
      = s.M - (1 + X m ⬝ᵥ s.M.mulVec (X m))⁻¹ •
          vecMulVec (s.M.mulVec (X m)) (s.M.mulVec (X m)) := rfl
  have hb : (rlsStep (X m) (y m) s).beta
      = s.beta + ((1 + X m ⬝ᵥ s.M.mulVec (X m))⁻¹ * (y m - X m ⬝ᵥ s.beta)) •
          s.M.mulVec (X m) := rfl
  set x := X m with hxdef
  set g := s.M.mulVec x with hgdef
  set f := 1 + x ⬝ᵥ g with hfdef
  have hGg : (gram X m).mulVec g = x := by
    rw [hgdef, Matrix.mulVec_mulVec, h.right, Matrix.one_mulVec]
  have hxg_nonneg : 0 ≤ x ⬝ᵥ g := by
    rcases eq_or_ne g 0 with hg0 | hg0
    · rw [hg0]
      simp [dotProduct]
    · have hpos := h.posdef g hg0
      rw [hGg] at hpos
      rw [dotProduct_comm g x] at hpos
      exact le_of_lt hpos
  have hfpos : (0 : ℚ) < f := by rw [hfdef]; linarith
  have hfne : f ≠ 0 := ne_of_gt hfpos
  have hgx : g ⬝ᵥ x = f - 1 := by rw [hfdef, dotProduct_comm]; ring
  have hxgf : x ⬝ᵥ g = f - 1 := by rw [hfdef]; ring
  have hGTg : (gram X m)ᵀ.mulVec g = x := by rw [gram_transpose]; exact hGg
  have hMTx : s.Mᵀ.mulVec x = g := by rw [h.symm, hgdef]
  have hGm1 : gram X (m + 1) = gram X m + vecMulVec x x := gram_succ X m
  have hcoef : f⁻¹ + f⁻¹ * (f - 1) = 1 := by field_simp
  refine ⟨?_, ?_, ?_, ?_, ?_⟩
  · -- positive definiteness is preserved by adding the rank-one term
    intro v hv
    rw [hGm1, Matrix.add_mulVec, dotProduct_add, vecMulVec_mulVec_eq, dotProduct_smul,
      smul_eq_mul, dotProduct_comm v x]
    have h1 := h.posdef v hv
    nlinarith [sq_nonneg (x ⬝ᵥ v)]
  · -- left inverse:  M' * G' = 1   (Sherman–Morrison identity)
    rw [hg, hGm1, sub_mul, mul_add, mul_add, Matrix.smul_mul, Matrix.smul_mul,
      h.left, mul_vecMulVec_eq, ← hgdef, vecMulVec_mul_eq, hGTg,
      vecMulVec_mul_eq, vecMulVec_transpose_eq, vecMulVec_mulVec_eq, hxgf,
      vecMulVec_smul_right, smul_smul]
    rw [← add_smul, hcoef, one_smul, add_sub_cancel_right]
  · -- right inverse:  G' * M' = 1
    rw [hg, hGm1, mul_sub, Matrix.mul_smul, add_mul, add_mul,
      h.right, vecMulVec_mul_eq, hMTx, mul_vecMulVec_eq, hGg,
      vecMulVec_mul_eq, vecMulVec_transpose_eq, vecMulVec_mulVec_eq, hgx,
      vecMulVec_smul_right, smul_add, smul_smul]
    rw [← add_smul, hcoef, one_smul, add_sub_cancel_right]
  · -- symmetry of the updated inverse Gram matrix
    rw [hg, Matrix.transpose_sub, Matrix.transpose_smul, vecMulVec_transpose_eq, h.symm]
  · -- normal equations for the updated coefficient vector
    rw [hb, hGm1, xty_succ, Matrix.add_mulVec, Matrix.mulVec_add, Matrix.mulVec_add,
      Matrix.mulVec_smul, Matrix.mulVec_smul, h.normal, hGg,
      vecMulVec_mulVec_eq, vecMulVec_mulVec_eq, hxgf, smul_smul]
    funext i
    simp only [Pi.add_apply, Pi.smul_apply, smul_eq_mul]
    field_simp
    ring

theorem rlsIter_inv {p : ℕ} (X : ℕ → Fin p → ℚ) (y : ℕ → ℚ) (span : ℕ)
    (hPD : PosDefQ (gram X span)) :
    ∀ k, RLSInv X y (span + k) (rlsIter X y span k) := by
  intro k
  induction k with
  | zero => simpa [rlsIter] using rlsInit_inv X y span hPD
  | succ k ih =>
      rw [Nat.add_succ]
      exact rlsStep_inv X y (span + k) _ ih

/-- C2: for every design-row sequence `X`, dependent sequence `y` and window
size `span` whose initial-window Gram matrix is positive definite (i.e. the
first `span` rows have full column rank, the condition under which the
initial `np.linalg.inv` of `recresid` succeeds), the coefficient vector held
by the incremental Sherman–Morrison loop after processing rows
`span, …, span + k - 1` equals — exactly, in exact arithmetic — the batch
OLS coefficient vector on all rows processed so far: the Gram matrix
`XᵀX` of rows `[0, span + k)` is invertible and the held `beta` equals
`inv(XᵀX) (Xᵀy)` over those rows. -/
theorem rlsIter_beta_eq_batch_ols {p : ℕ} (X : ℕ → Fin p → ℚ) (y : ℕ → ℚ)
    (span : ℕ) (hPD : PosDefQ (gram X span)) (k : ℕ) :
    (gram X (span + k)).det ≠ 0 ∧
      (rlsIter X y span k).beta
        = (matInv (gram X (span + k))).mulVec (xty X y (span + k)) := by
  have h := rlsIter_inv X y span hPD k
  have hdet := posDefQ_det_ne_zero h.posdef
  refine ⟨hdet, ?_⟩
  have h1 : (matInv (gram X (span + k))).mulVec
      ((gram X (span + k)).mulVec (rlsIter X y span k).beta)
      = (rlsIter X y span k).beta := by
    rw [Matrix.mulVec_mulVec, matInv_mul_self hdet, Matrix.one_mulVec]
  rw [← h.normal]
  exact h1.symm

/-- The constant design-row sequence `[1]` used by concrete witnesses. -/
def onesX : ℕ → Fin 1 → ℚ := fun _ => fun _ => 1

theorem onesX_posdef : PosDefQ (gram onesX 1) := by
  intro v hv
  have hv0 : v 0 ≠ 0 := by
    intro h0
    apply hv
    funext j
    fin_cases j
    exact h0
  have h2 : (0 : ℚ) < v 0 * v 0 := mul_self_pos.2 hv0
  simpa [gram, onesX, dotProduct, Matrix.mulVec, Matrix.vecMulVec_apply,
    Finset.sum_range_succ, Fin.sum_univ_one] using h2

/-- Witness for `rlsIter_beta_eq_batch_ols` at `p = 1`, `X` all-ones,
`y j = j`, `span = 1`, one loop step. -/
theorem rlsIter_beta_eq_batch_ols_witness :
    (gram onesX (1 + 1)).det ≠ 0 ∧
      (rlsIter onesX (fun i : ℕ => (i : ℚ)) 1 1).beta
        = (matInv (gram onesX (1 + 1))).mulVec
            (xty onesX (fun i : ℕ => (i : ℚ)) (1 + 1)) :=
  rlsIter_beta_eq_batch_ols onesX (fun i : ℕ => (i : ℚ)) 1 onesX_posdef 1

/-- The raw one-step residual array `recresid_` of the source (stability.py
line 138, filled at lines 150 and 166): position `span - 1` is set from the
initial fit, position `j` with `span ≤ j < nobs` is set inside the loop
using the coefficient vector in force *before* row `j`'s update, and every
other position keeps its `NaN` initialisation. -/
def recresidRaw {p : ℕ} (X : ℕ → Fin p → ℚ) (y : ℕ → ℚ) (span nobs : ℕ)
    (j : ℕ) : Option ℚ :=
  if j + 1 = span then some (y j - X j ⬝ᵥ (rlsInit X y span).beta)
  else if span ≤ j ∧ j < nobs then
    some (y j - X j ⬝ᵥ (rlsIter X y span (j - span)).beta)
  else none

/-- The prediction-variance array `recvar` of the source (stability.py line
139, filled at lines 151-152 and 167): `1 + x·(M x)` with the inverse Gram
matrix in force before the row's update. -/
def recvarRaw {p : ℕ} (X : ℕ → Fin p → ℚ) (y : ℕ → ℚ) (span nobs : ℕ)
    (j : ℕ) : Option ℚ :=
  if j + 1 = span then some (1 + X j ⬝ᵥ (rlsInit X y span).M.mulVec (X j))
  else if span ≤ j ∧ j < nobs then
    some (1 + X j ⬝ᵥ (rlsIter X y span (j - span)).M.mulVec (X j))
  else none

/-- The sequence returned by `recresid` (stability.py line 169): the
elementwise quotient `recresid_ / sqrt(recvar)`; positions never written
hold `NaN / sqrt(NaN) = NaN`, the missing sentinel. -/
noncomputable def recresid {p : ℕ} (X : ℕ → Fin p → ℚ) (y : ℕ → ℚ)
    (span nobs : ℕ) : List (Option ℝ) :=
  (List.range nobs).map fun j =>
    match recresidRaw X y span nobs j, recvarRaw X y span nobs j with
    | some r, some v => some ((r : ℝ) / Real.sqrt ((v : ℚ) : ℝ))
    | _, _ => none

/-- C7: for `p ≥ 1` design columns, `p ≤ span < nobs` and a
positive-definite (full-rank) initial-window Gram matrix, `recresid`
returns a sequence of length exactly `nobs` whose first `span - 1` entries
are the missing sentinel, and whose entry at every position
`span - 1 ≤ j < nobs` equals the recorded raw one-step residual at `j`
divided by the square root of the recorded prediction-variance term at
`j`. -/
theorem recresid_shape {p : ℕ} (X : ℕ → Fin p → ℚ) (y : ℕ → ℚ)
    (span nobs : ℕ) (hp : 1 ≤ p) (hsp : p ≤ span) (hn : span < nobs)
    (hPD : PosDefQ (gram X span)) :
    (recresid X y span nobs).length = nobs ∧
    (∀ j : ℕ, j < nobs → j + 1 < span →
      (recresid X y span nobs)[j]? = some none) ∧
    (∀ j : ℕ, j < nobs → span ≤ j + 1 →
      ∃ r v : ℚ, recresidRaw X y span nobs j = some r ∧
        recvarRaw X y span nobs j = some v ∧
        (recresid X y span nobs)[j]?
          = some (some ((r : ℝ) / Real.sqrt ((v : ℚ) : ℝ)))) := by
  refine ⟨by simp [recresid], ?_, ?_⟩
  · intro j hj hjs
    rw [recresid, List.getElem?_map, List.getElem?_range hj]
    have h1 : ¬ j + 1 = span := by omega
    have h2 : ¬ (span ≤ j ∧ j < nobs) := by omega
    simp only [Option.map_some']
    rw [recresidRaw, if_neg h1, if_neg h2]
  · intro j hj hjs
    rcases Nat.lt_or_ge j span with hlt | hge
    · have h1 : j + 1 = span := by omega
      refine ⟨y j - X j ⬝ᵥ (rlsInit X y span).beta,
        1 + X j ⬝ᵥ (rlsInit X y span).M.mulVec (X j), ?_, ?_, ?_⟩
      · rw [recresidRaw, if_pos h1]
      · rw [recvarRaw, if_pos h1]
      · rw [recresid, List.getElem?_map, List.getElem?_range hj]
        simp only [Option.map_some']
        rw [recresidRaw, recvarRaw, if_pos h1, if_pos h1]
    · have h1 : ¬ j + 1 = span := by omega
      have h2 : span ≤ j ∧ j < nobs := ⟨hge, hj⟩
      refine ⟨y j - X j ⬝ᵥ (rlsIter X y span (j - span)).beta,
        1 + X j ⬝ᵥ (rlsIter X y span (j - span)).M.mulVec (X j), ?_, ?_, ?_⟩
      · rw [recresidRaw, if_neg h1, if_pos h2]
      · rw [recvarRaw, if_neg h1, if_pos h2]
      · rw [recresid, List.getElem?_map, List.getElem?_range hj]
        simp only [Option.map_some']
        rw [recresidRaw, recvarRaw, if_neg h1, if_neg h1, if_pos h2, if_pos h2]

/-- Witness for `recresid_shape` at `p = 1`, `X` all-ones, `y j = j`,
`span = 1`, `nobs = 2`. -/
theorem recresid_shape_witness :
    (recresid onesX (fun i : ℕ => (i : ℚ)) 1 2).length = 2 ∧
    (∀ j : ℕ, j < 2 → j + 1 < 1 →
      (recresid onesX (fun i : ℕ => (i : ℚ)) 1 2)[j]? = some none) ∧
    (∀ j : ℕ, j < 2 → 1 ≤ j + 1 →
      ∃ r v : ℚ, recresidRaw onesX (fun i : ℕ => (i : ℚ)) 1 2 j = some r ∧
        recvarRaw onesX (fun i : ℕ => (i : ℚ)) 1 2 j = some v ∧
        (recresid onesX (fun i : ℕ => (i : ℚ)) 1 2)[j]?
          = some (some ((r : ℝ) / Real.sqrt ((v : ℚ) : ℝ)))) :=
  recresid_shape onesX (fun i : ℕ => (i : ℚ)) 1 2 (Nat.le_refl 1) (Nat.le_refl 1)
    (by omega) onesX_posdef

/-! ## Spec-modelled Regression Provider — `nrt.fit_methods.ols`

`ccdc_stable_fit` imports `ols` from `nrt.fit_methods`, which is not among
the sources of this repository. -/

/-- Number of valid (non-missing) observations of a column:
`np.count_nonzero(~np.isnan(col))`. -/
def validCount (col : List (Option ℚ)) : ℕ := (col.filterMap id).length

/-- Determinant of a square matrix given as a list of rows, by Laplace
expansion along the first row; the `fuel` argument (instantiated with the
row count) only makes the recursion structural. -/
def detFuel : ℕ → List (List ℚ) → ℚ
  | _, [] => 1
  | 0, _ => 0
  | fuel + 1, r :: rs =>
    ((List.range r.length).map fun j =>
      (-1 : ℚ) ^ j * r.getD j 0 * detFuel fuel (rs.map fun row => row.eraseIdx j)).sum

/-- Determinant of a list-of-rows matrix. -/
def detL (m : List (List ℚ)) : ℚ := detFuel m.length m

/-- Dot product of two rational lists. -/
def ldot (a b : List ℚ) : ℚ := (List.zipWith (fun u v => u * v) a b).sum

/-- Replace column `i` of a list-of-rows matrix by the vector `c`. -/
def replaceCol (M : List (List ℚ)) (i : ℕ) (c : List ℚ) : List (List ℚ) :=
  List.zipWith (fun row cv => row.set i cv) M c

/-- Gram matrix `XᵀX` of a list of design rows, as a `p × p` list of rows. -/
def gramL (p : ℕ) (rows : List (List ℚ)) : List (List ℚ) :=
  (List.range p).map fun i => (List.range p).map fun j =>
    (rows.map fun r => r.getD i 0 * r.getD j 0).sum

/-- Moment vector `Xᵀy` of a list of design rows and observations. -/
def xtyL (p : ℕ) (rows : List (List ℚ)) (ys : List ℚ) : List ℚ :=
  (List.range p).map fun i => (List.zipWith (fun r v => r.getD i 0 * v) rows ys).sum

/-- Cramer solution of `G β = c`; on a singular system every entry is the
junk value `x / 0 = 0` (numpy would raise `LinAlgError`, which the spec
excludes here: "full-column fits assumed well-determined"). -/
def solveL (p : ℕ) (G : List (List ℚ)) (c : List ℚ) : List ℚ :=
  (List.range p).map fun i => detL (replaceCol G i c) / detL G

/-- The design rows paired with the column's valid observations: the rows
where this column is not missing. -/
def validRows (Xrows : List (List ℚ)) (col : List (Option ℚ)) :
    List (List ℚ × ℚ) :=
  (List.zipWith (fun r o => (r, o)) Xrows col).filterMap
    fun rv => rv.2.map fun v => (rv.1, v)

/-- Modelled from the spec: `nrt.fit_methods.ols` (the exact Regression
Provider) is not under `src/`.  Per spec §6 it takes `X : n × p` and
`Y : n × k` (missing sentinel permitted) and returns coefficients `p × k`,
"computed independently per column ignoring rows where that column has
missing entries", with rank deficiency not expected.  This is one column's
coefficient vector (length `p`): ordinary least squares by normal
equations over the rows where the column is valid. -/
def olsBeta (p : ℕ) (Xrows : List (List ℚ)) (col : List (Option ℚ)) : List ℚ :=
  solveL p (gramL p ((validRows Xrows col).map fun rv => rv.1))
    (xtyL p ((validRows Xrows col).map fun rv => rv.1)
      ((validRows Xrows col).map fun rv => rv.2))

/-- Modelled from the spec: the residual column `y - X β` returned by the
Regression Provider for one column; rows where the observation is missing
stay missing. -/
def olsResid (p : ℕ) (Xrows : List (List ℚ)) (col : List (Option ℚ)) :
    List (Option ℚ) :=
  List.zipWith (fun r o => o.map fun yv => yv - ldot r (olsBeta p Xrows col))
    Xrows col

theorem olsBeta_length (p : ℕ) (Xrows : List (List ℚ)) (col : List (Option ℚ)) :
    (olsBeta p Xrows col).length = p := by
  simp [olsBeta, solveL]

theorem olsResid_length (p : ℕ) (Xrows : List (List ℚ)) (col : List (Option ℚ)) :
    (olsResid p Xrows col).length = min Xrows.length col.length := by
  simp [olsResid]

/-! ## Iterative Stable-Fit Controller — `ccdc_stable_fit`
(stability.py, lines 22-101)

The controller operates on a time × pixels batch.  Here the dependent
matrix `y` is modelled as the list of its `k` pixel columns (each a list
over the time axis), masks over pixels are `List Bool` of length `k`, and
numpy's boolean-mask indexing is modelled by `maskSelect` (read) and
`maskSet` / `maskSetWith` (assignment, consuming the replacement columns in
order at the `true` positions). -/

/-- numpy boolean-mask selection `a[mask]`. -/
def maskSelect {α : Type} : List Bool → List α → List α
  | true :: ms, x :: xs => x :: maskSelect ms xs
  | false :: ms, _ :: xs => maskSelect ms xs
  | _, _ => []

/-- numpy boolean-mask assignment `a[mask] = vals`. -/
def maskSet {α : Type} : List Bool → List α → List α → List α
  | true :: ms, _ :: xs, v :: vs => v :: maskSet ms xs vs
  | false :: ms, x :: xs, vs => x :: maskSet ms xs vs
  | _, xs, _ => xs

/-- numpy boolean-mask assignment whose replacement value may depend on the
overwritten entry (used for the residual columns, whose length fixes how
many leading sentinel positions are kept). -/
def maskSetWith {α β : Type} (f : α → β → α) :
    List Bool → List α → List β → List α
  | true :: ms, x :: xs, v :: vs => f x v :: maskSetWith f ms xs vs
  | false :: ms, x :: xs, vs => x :: maskSetWith f ms xs vs
  | _, xs, _ => xs

/-- Pointwise form of a masked assignment: at `true` positions combine the
old entry with the column datum, elsewhere keep the old entry. -/
def maskZip3 {α β : Type} (f : α → β → α) :
    List Bool → List α → List β → List α
  | m :: ms, x :: xs, c :: cs => (if m then f x c else x) :: maskZip3 f ms xs cs
  | _, xs, _ => xs

/-- numpy cast of a day-valued timedelta to whole years
(`delta.astype('timedelta64[Y]')`): scale by the exact numpy ratio of one
year = 146097/400 days and truncate toward zero. -/
def td64Years (d : ℤ) : ℤ :=
  if 0 ≤ d then d * 400 / 146097 else -((-d) * 400 / 146097)

/-- The year guard of stability.py lines 61 and 93:
`delta.astype('timedelta64[Y]') < np.timedelta64(1, 'Y')`. -/
def yearLt (d : ℤ) : Bool := decide (td64Years d < 1)

/-- Failures of `ccdc_stable_fit`: the explicit `ValueError` of line 62, a
numpy `IndexError` (out-of-range read such as `dates[0]` on an exhausted
array, or `beta_sub[1, :]` with fewer than two coefficients), and the
artificial marker for exhausted recursion fuel (the Python `while` loop has
no such case; `ccdcLoop` is always called with enough fuel, and
`ccdcLoop_ok` proves the marker unreachable). -/
inductive CcdcErr where
  | valueError
  | indexError
  | fuelOut
deriving DecidableEq

/-- Call-invariant parameters of the loop: the column count of the original
design matrix (`X.shape[1]`), the stability threshold, and `last_date`,
which line 57 reads once and the loop never updates. -/
structure CParams where
  p : ℕ
  threshold : ℚ
  lastDate : ℤ

/-- Mutable state of the `while` loop of lines 69-101. -/
structure CState where
  is_stable : List Bool
  enough : List Bool
  beta : List (Option (List ℚ))
  residuals : List (List (Option ℚ))
  ySub : List (List (Option ℚ))
  XSub : List (List ℚ)
  datesSub : List ℤ

/-- The working output triple. -/
def COut := List (Option (List ℚ)) × List (List (Option ℚ)) × List Bool

/-- Outcome of one loop iteration. -/
inductive StepRes where
  | err : CcdcErr → StepRes
  | done : List (Option (List ℚ)) → List (List (Option ℚ)) → List Bool → StepRes
  | next : CState → StepRes

/-- The still-iterating columns `~is_stable & enough`. -/
def activeMask (S : CState) : List Bool :=
  List.zipWith (fun st en => !st && en) S.is_stable S.enough

/-- The loop guard of line 69: `np.all(is_stable | ~enough)`. -/
def loopDone (S : CState) : Bool :=
  (List.zipWith (fun st en => st || !en) S.is_stable S.enough).all fun b => b

/-- The slope row `beta_sub[1, :]` of line 77: the second coefficient of
every fitted column, or an `IndexError` when there is no second
coefficient row. -/
def getSlopes : List (List ℚ) → Option (List ℚ)
  | [] => some []
  | b :: bs =>
    match b[1]?, getSlopes bs with
    | some s, some rest => some (s :: rest)
    | _, _ => none

/-- One iteration of the `while` loop of `ccdc_stable_fit` (lines 69-101),
in source order: exit test; OLS fit of all active columns on the current
window; write-back of coefficients and of window-aligned residuals (the
positions before the window are reset to the sentinel); slope extraction
`beta_sub[1, :]` (an `IndexError` when there is no second coefficient row);
stability test; update of the stable mask; removal of the two oldest rows
and of the newly stable columns; the one-year re-check on the shrunk dates
(reading `dates[0]`, an `IndexError` if the array is exhausted) which on
failure returns the accumulators as they now stand; the recount of valid
observations; update of the enough mask; and removal of the columns that
no longer have enough data. -/
def ccdcStep (P : CParams) (S : CState) : StepRes :=
  if loopDone S then .done S.beta S.residuals S.is_stable
  else
    let betaSub := S.ySub.map (olsBeta P.p S.XSub)
    let residSub := S.ySub.map (olsResid P.p S.XSub)
    let beta1 := maskSet (activeMask S) S.beta (betaSub.map some)
    let resid1 := maskSetWith
      (fun old r => List.replicate (old.length - r.length) (none : Option ℚ) ++ r)
      (activeMask S) S.residuals residSub
    match getSlopes betaSub with
    | none => .err .indexError
    | some slopes =>
      let stableSub := List.zipWith
        (fun sl col => is_stable_ccdc_col sl col P.threshold) slopes residSub
      let stable1 := maskSet (activeMask S) S.is_stable stableSub
      let ySub1 := (maskSelect (stableSub.map fun b => !b) S.ySub).map (List.drop 2)
      let XSub1 := S.XSub.drop 2
      match S.datesSub.drop 2 with
      | [] => .err .indexError
      | d0 :: drest =>
        if yearLt (P.lastDate - d0) then .done beta1 resid1 stable1
        else
          let enoughSub := ySub1.map fun c => decide (3 * P.p < 2 * validCount c)
          let mask98 := List.zipWith (fun st en => !st && en) stable1 S.enough
          let enough1 := maskSet mask98 S.enough enoughSub
          let ySub2 := maskSelect enoughSub ySub1
          .next { is_stable := stable1, enough := enough1, beta := beta1,
                  residuals := resid1, ySub := ySub2, XSub := XSub1,
                  datesSub := d0 :: drest }

/-- The `while` loop, by recursion on a fuel bound; each iteration removes
two dates, so `dates.length + 1` fuel can never run out (`ccdcLoop_ok`). -/
def ccdcLoop (P : CParams) : ℕ → CState → Except CcdcErr COut
  | 0, _ => .error .fuelOut
  | fuel + 1, S =>
    match ccdcStep P S with
    | .err e => .error e
    | .done b r st => .ok (b, r, st)
    | .next S2 => ccdcLoop P fuel S2

/-- `ccdc_stable_fit(X, y, dates, threshold)` (stability.py lines 22-101).
`p` is the column count of `X` (`X.shape[1]`); `y` is given as its list of
pixel columns.  Lines 49-52 compute the valid-observation counts and the
initial `enough` mask (`obs_count > 1.5 p`, i.e. `2·count > 3·p` exactly)
and select the columns with enough data; lines 56-62 read the first and
last date and raise `ValueError` when their span, cast to whole years, is
below one year; lines 65-66 allocate the all-missing coefficient and
residual outputs; then the loop runs. -/
def ccdc_stable_fit (p : ℕ) (X : List (List ℚ)) (y : List (List (Option ℚ)))
    (dates : List ℤ) (threshold : ℚ) : Except CcdcErr COut :=
  let enough0 := y.map fun c => decide (3 * p < 2 * validCount c)
  let stable0 := y.map fun _ => false
  let ySub0 := maskSelect enough0 y
  match dates with
  | [] => .error .indexError
  | first :: _ =>
    let last := dates.getLastD first
    if yearLt (last - first) then .error .valueError
    else
      ccdcLoop { p := p, threshold := threshold, lastDate := last }
        (dates.length + 1)
        { is_stable := stable0, enough := enough0,
          beta := y.map fun _ => none,
          residuals := y.map fun c => c.map fun _ => none,
          ySub := ySub0, XSub := X, datesSub := dates }

/-! ### Mask-combinator algebra -/

theorem maskSelect_map {α β : Type} (f : α → β) :
    ∀ (ms : List Bool) (xs : List α),
      maskSelect ms (xs.map f) = (maskSelect ms xs).map f
  | [], xs => by cases xs <;> simp [maskSelect]
  | m :: ms, [] => by simp [maskSelect]
  | true :: ms, x :: xs => by
      simp [maskSelect, List.map_cons, maskSelect_map f ms xs]
  | false :: ms, x :: xs => by
      simp [maskSelect, List.map_cons, maskSelect_map f ms xs]

theorem maskZip3_length {α β : Type} (f : α → β → α) :
    ∀ (ms : List Bool) (xs : List α) (cs : List β),
      (maskZip3 f ms xs cs).length = xs.length
  | [], xs, cs => by simp [maskZip3]
  | m :: ms, [], cs => by simp [maskZip3]
  | m :: ms, x :: xs, [] => by simp [maskZip3]
  | m :: ms, x :: xs, c :: cs => by
      simp [maskZip3, maskZip3_length f ms xs cs]

theorem maskSet_nil_vals {α : Type} :
    ∀ (ms : List Bool) (xs : List α), maskSet ms xs [] = xs
  | [], xs => by simp [maskSet]
  | true :: ms, [] => by simp [maskSet]
  | true :: ms, x :: xs => by simp [maskSet]
  | false :: ms, [] => by simp [maskSet]
  | false :: ms, x :: xs => by simp [maskSet, maskSet_nil_vals ms xs]

theorem maskSetWith_nil_vals {α β : Type} (f : α → β → α) :
    ∀ (ms : List Bool) (xs : List α), maskSetWith f ms xs [] = xs
  | [], xs => by simp [maskSetWith]
  | true :: ms, [] => by simp [maskSetWith]
  | true :: ms, x :: xs => by simp [maskSetWith]
  | false :: ms, [] => by simp [maskSetWith]
  | false :: ms, x :: xs => by simp [maskSetWith, maskSetWith_nil_vals f ms xs]

theorem maskSet_map_maskSelect {α β : Type} (g : β → α) :
    ∀ (ms : List Bool) (xs : List α) (cs : List β),
      maskSet ms xs ((maskSelect ms cs).map g)
        = maskZip3 (fun _ c => g c) ms xs cs
  | [], xs, cs => by simp [maskSet, maskZip3, maskSelect]
  | m :: ms, [], cs => by cases m <;> cases cs <;> simp [maskSet, maskZip3, maskSelect]
  | m :: ms, x :: xs, [] => by
      cases m <;> simp [maskSet, maskZip3, maskSelect, maskSet_nil_vals]
  | true :: ms, x :: xs, c :: cs => by
      simp only [maskSelect, List.map_cons, maskSet, maskZip3, if_true]
      rw [maskSet_map_maskSelect g ms xs cs]
  | false :: ms, x :: xs, c :: cs => by
      simp only [maskSelect, maskSet, maskZip3]
      rw [maskSet_map_maskSelect g ms xs cs]
      simp

theorem maskSetWith_map_maskSelect {α β γ : Type} (f : α → γ → α) (g : β → γ) :
    ∀ (ms : List Bool) (xs : List α) (cs : List β),
      maskSetWith f ms xs ((maskSelect ms cs).map g)
        = maskZip3 (fun x c => f x (g c)) ms xs cs
  | [], xs, cs => by simp [maskSetWith, maskZip3, maskSelect]
  | m :: ms, [], cs => by cases m <;> cases cs <;> simp [maskSetWith, maskZip3, maskSelect]
  | m :: ms, x :: xs, [] => by
      cases m <;> simp [maskSetWith, maskZip3, maskSelect, maskSetWith_nil_vals]
  | true :: ms, x :: xs, c :: cs => by
      simp only [maskSelect, List.map_cons, maskSetWith, maskZip3, if_true]
      rw [maskSetWith_map_maskSelect f g ms xs cs]
  | false :: ms, x :: xs, c :: cs => by
      simp only [maskSelect, maskSetWith, maskZip3]
      rw [maskSetWith_map_maskSelect f g ms xs cs]
      simp

theorem maskSelect_map_maskSelect {β γ : Type} (g : β → Bool) (h : β → γ) :
    ∀ (ms : List Bool) (cs : List β),
      maskSelect ((maskSelect ms cs).map g) ((maskSelect ms cs).map h)
        = maskSelect (List.zipWith (fun m c => m && g c) ms cs) (cs.map h)
  | [], cs => by cases cs <;> simp [maskSelect]
  | m :: ms, [] => by cases m <;> simp [maskSelect]
  | true :: ms, c :: cs => by
      rcases hgc : g c with hf | ht
      · simp only [maskSelect, List.map_cons, hgc, List.zipWith_cons_cons,
          Bool.true_and]
        exact maskSelect_map_maskSelect g h ms cs
      · simp only [maskSelect, List.map_cons, hgc, List.zipWith_cons_cons,
          Bool.true_and]
        rw [maskSelect_map_maskSelect g h ms cs]
  | false :: ms, c :: cs => by
      simp only [maskSelect, List.map_cons, List.zipWith_cons_cons, Bool.false_and]
      exact maskSelect_map_maskSelect g h ms cs

theorem maskZip3_getD {α β : Type} (f : α → β → α) :
    ∀ (ms : List Bool) (xs : List α) (cs : List β) (i : ℕ),
      i < ms.length → ms.length = xs.length → ms.length = cs.length →
      ∀ (dx : α) (dc : β),
        (maskZip3 f ms xs cs).getD i dx
          = if ms.getD i false = true then f (xs.getD i dx) (cs.getD i dc)
            else xs.getD i dx
  | [], _, _, i, hi, _, _, _, _ => by simp at hi
  | m :: ms, [], cs, i, hi, h1, _, _, _ => by simp at h1
  | m :: ms, x :: xs, [], i, hi, _, h2, _, _ => by simp at h2
  | m :: ms, x :: xs, c :: cs, 0, hi, h1, h2, dx, dc => by
      cases m <;> simp [maskZip3]
  | m :: ms, x :: xs, c :: cs, i + 1, hi, h1, h2, dx, dc => by
      simp only [maskZip3, List.getD_cons_succ]
      exact maskZip3_getD f ms xs cs i (by simpa using hi) (by simpa using h1)
        (by simpa using h2) dx dc

theorem zipWith_getD {α β γ : Type} (f : α → β → γ) :
    ∀ (xs : List α) (ys : List β) (i : ℕ),
      i < xs.length → xs.length = ys.length →
      ∀ (dx : α) (dy : β) (dz : γ),
        (List.zipWith f xs ys).getD i dz = f (xs.getD i dx) (ys.getD i dy)
  | [], _, i, hi, _, _, _, _ => by simp at hi
  | x :: xs, [], i, hi, h1, _, _, _ => by simp at h1
  | x :: xs, y :: ys, 0, hi, h1, dx, dy, dz => by simp
  | x :: xs, y :: ys, i + 1, hi, h1, dx, dy, dz => by
      simp only [List.zipWith_cons_cons, List.getD_cons_succ]
      exact zipWith_getD f xs ys i (by simpa using hi) (by simpa using h1) dx dy dz

theorem maskSet_length {α : Type} :
    ∀ (ms : List Bool) (xs : List α) (vs : List α),
      (maskSet ms xs vs).length = xs.length
  | [], xs, vs => by simp [maskSet]
  | m :: ms, [], vs => by cases m <;> cases vs <;> simp [maskSet]
  | true :: ms, x :: xs, [] => by simp [maskSet]
  | true :: ms, x :: xs, v :: vs => by simp [maskSet, maskSet_length ms xs vs]
  | false :: ms, x :: xs, vs => by simp [maskSet, maskSet_length ms xs vs]

theorem maskZip3_comm_zip {γ : Type} (g : γ → Bool) :
    ∀ (st en : List Bool) (y : List γ),
      st.length = en.length → st.length = y.length →
      List.zipWith (fun s e => !s && e)
          (maskZip3 (fun _ c => g c) (List.zipWith (fun s e => !s && e) st en) st y)
          en
        = List.zipWith (fun m c => m && !(g c))
            (List.zipWith (fun s e => !s && e) st en) y
  | [], en, y, h1, h2 => by simp [maskZip3]
  | s :: st, [], y, h1, h2 => by simp at h1
  | s :: st, e :: en, [], h1, h2 => by simp at h2
  | s :: st, e :: en, c :: y, h1, h2 => by
      simp only [List.zipWith_cons_cons, maskZip3]
      rw [maskZip3_comm_zip g st en y (by simpa using h1) (by simpa using h2)]
      cases s <;> cases e <;> cases hgc : g c <;> simp [hgc]

theorem maskZip3_act2 {γ : Type} (g1 g2 : γ → Bool) :
    ∀ (st en : List Bool) (y : List γ),
      st.length = en.length → st.length = y.length →
      List.zipWith (fun s e => !s && e)
          (maskZip3 (fun _ c => g1 c) (List.zipWith (fun s e => !s && e) st en) st y)
          (maskZip3 (fun _ c => g2 c)
            (List.zipWith (fun m c => m && !(g1 c))
              (List.zipWith (fun s e => !s && e) st en) y) en y)
        = List.zipWith (fun m c => m && g2 c)
            (List.zipWith (fun m c => m && !(g1 c))
              (List.zipWith (fun s e => !s && e) st en) y) y
  | [], en, y, h1, h2 => by simp [maskZip3]
  | s :: st, [], y, h1, h2 => by simp at h1
  | s :: st, e :: en, [], h1, h2 => by simp at h2
  | s :: st, e :: en, c :: y, h1, h2 => by
      simp only [List.zipWith_cons_cons, maskZip3]
      rw [maskZip3_act2 g1 g2 st en y (by simpa using h1) (by simpa using h2)]
      cases s <;> cases e <;> cases hg1 : g1 c <;> cases hg2 : g2 c <;>
        simp [hg1, hg2]

theorem getSlopes_eq :
    ∀ (l : List (List ℚ)), (∀ b ∈ l, 1 < b.length) →
      getSlopes l = some (l.map fun b => b.getD 1 0)
  | [], _ => by simp [getSlopes]
  | b :: l, h => by
      have hb : 1 < b.length := h b (List.mem_cons_self b l)
      have hrest := getSlopes_eq l fun x hx => h x (List.mem_cons_of_mem b hx)
      simp only [getSlopes, hrest, List.map_cons]
      rw [List.getElem?_eq_getElem hb, List.getD_eq_getElem b 0 hb]

/-! ### Controller invariants -/

/-- Entry `i` of the stable mask (`false` out of range). -/
def stableAt (S : CState) (i : ℕ) : Bool := S.is_stable.getD i false

/-- Entry `i` of the enough-data mask (`false` out of range). -/
def enoughAt (S : CState) (i : ℕ) : Bool := S.enough.getD i false

/-- Column `i` of the coefficient accumulator (`none` out of range). -/
def betaAt (S : CState) (i : ℕ) : Option (List ℚ) := S.beta.getD i none

/-- Column `i` of the residual accumulator (`[]` out of range). -/
def residAt (S : CState) (i : ℕ) : List (Option ℚ) := S.residuals.getD i []

/-- Column `i` of a column-list matrix (`[]` out of range). -/
def colAt (y : List (List (Option ℚ))) (i : ℕ) : List (Option ℚ) := y.getD i []

/-- The per-column entry test of lines 49-50: `obs_count > 1.5 p`. -/
def enough0 (p : ℕ) (y : List (List (Option ℚ))) (i : ℕ) : Bool :=
  decide (3 * p < 2 * validCount (colAt y i))

/-- The OLS coefficients of column `i` fitted on the window that starts
`d` rows in. -/
def fitBeta (p : ℕ) (X : List (List ℚ)) (y : List (List (Option ℚ)))
    (d i : ℕ) : List ℚ :=
  olsBeta p (X.drop d) ((colAt y i).drop d)

/-- The OLS residuals of column `i` fitted on the window that starts `d`
rows in. -/
def fitResid (p : ℕ) (X : List (List ℚ)) (y : List (List (Option ℚ)))
    (d i : ℕ) : List (Option ℚ) :=
  olsResid p (X.drop d) ((colAt y i).drop d)

/-- Loop invariant of `ccdc_stable_fit`, relating the state at the top of
an iteration whose window starts `d` rows into the original arrays to the
original inputs: shapes agree; the working window arrays are the `d`-row
suffixes of the originals restricted to the active columns; a stable
column still has enough data; every active column passed the
valid-observation test on the current window; each accumulator column is
either still untouched (all-missing) or holds the fit of some earlier
window of that same column; columns that failed the entry test are wholly
untouched; and a column is active, already fitted, or excluded at entry. -/
structure CWF (P : CParams) (X : List (List ℚ)) (y : List (List (Option ℚ)))
    (dates : List ℤ) (d : ℕ) (S : CState) : Prop where
  hXn : X.length = dates.length
  hcols : ∀ c ∈ y, c.length = dates.length
  hd : d ≤ dates.length
  hst : S.is_stable.length = y.length
  hen : S.enough.length = y.length
  hb : S.beta.length = y.length
  hr : S.residuals.length = y.length
  hXSub : S.XSub = X.drop d
  hdates : S.datesSub = dates.drop d
  hySub : S.ySub = (maskSelect (activeMask S) y).map (List.drop d)
  hstab_en : ∀ i < y.length, stableAt S i = true → enoughAt S i = true
  hcnt : ∀ i < y.length, (activeMask S).getD i false = true →
    3 * P.p < 2 * validCount ((colAt y i).drop d)
  hfits : ∀ i < y.length,
    (betaAt S i = none ∧ residAt S i = (colAt y i).map fun _ => none) ∨
    (∃ d2, d2 ≤ d ∧ betaAt S i = some (fitBeta P.p X y d2 i) ∧
      residAt S i = List.replicate d2 none ++ fitResid P.p X y d2 i)
  hexc : ∀ i < y.length, enough0 P.p y i = false →
    stableAt S i = false ∧ enoughAt S i = false ∧ betaAt S i = none ∧
    residAt S i = (colAt y i).map fun _ => none
  hQ : ∀ i < y.length, (activeMask S).getD i false = true ∨
    betaAt S i ≠ none ∨ enough0 P.p y i = false

/-- What holds of a returned `(beta, residuals, is_stable)` triple. -/
structure OutWF (P : CParams) (X : List (List ℚ)) (y : List (List (Option ℚ)))
    (dates : List ℤ) (b : List (Option (List ℚ))) (r : List (List (Option ℚ)))
    (st : List Bool) : Prop where
  hbl : b.length = y.length
  hrl : r.length = y.length
  hstl : st.length = y.length
  hfits : ∀ i < y.length,
    (b.getD i none = none ∧ r.getD i [] = (colAt y i).map fun _ => none) ∨
    (∃ d2, d2 ≤ dates.length ∧ b.getD i none = some (fitBeta P.p X y d2 i) ∧
      r.getD i [] = List.replicate d2 none ++ fitResid P.p X y d2 i)
  hexc : ∀ i < y.length, enough0 P.p y i = false →
    st.getD i false = false ∧ b.getD i none = none ∧
    r.getD i [] = (colAt y i).map fun _ => none
  hfit : ∀ i < y.length, enough0 P.p y i = true → b.getD i none ≠ none

theorem activeMask_length (S : CState) (h : S.is_stable.length = S.enough.length) :
    (activeMask S).length = S.is_stable.length := by
  simp [activeMask, List.length_zipWith, h]

theorem loopDone_all_inactive :
    ∀ (st en : List Bool),
      (List.zipWith (fun s e => s || !e) st en).all (fun b => b) = true →
      ∀ i, (List.zipWith (fun s e => !s && e) st en).getD i false = false
  | [], en, h, i => by cases en <;> simp
  | s :: st, [], h, i => by simp
  | s :: st, e :: en, h, i => by
      simp only [List.zipWith_cons_cons, List.all_cons, Bool.and_eq_true] at h
      cases i with
      | zero =>
          cases s <;> cases e <;> simp_all
      | succ i =>
          simpa using loopDone_all_inactive st en h.2 i

theorem loopDone_false_active :
    ∀ (st en : List Bool),
      (List.zipWith (fun s e => s || !e) st en).all (fun b => b) = false →
      ∃ i, i < st.length ∧
        (List.zipWith (fun s e => !s && e) st en).getD i false = true
  | [], en, h => by cases en <;> simp at h
  | s :: st, [], h => by simp at h
  | s :: st, e :: en, h => by
      simp only [List.zipWith_cons_cons, List.all_cons, Bool.and_eq_false_iff] at h
      rcases h with h | h
      · refine ⟨0, Nat.succ_pos _, ?_⟩
        cases s <;> cases e <;> simp_all
      · obtain ⟨i, hi, hact⟩ := loopDone_false_active st en h
        exact ⟨i + 1, by simpa using hi, by simpa using hact⟩

theorem map_getD {α β : Type} (f : α → β) :
    ∀ (l : List α) (i : ℕ), i < l.length → ∀ (da : α) (db : β),
      (l.map f).getD i db = f (l.getD i da)
  | [], i, hi, _, _ => by simp at hi
  | x :: l, 0, hi, da, db => by simp
  | x :: l, i + 1, hi, da, db => by
      simpa using map_getD f l i (by simpa using hi) da db

theorem zipWith_false_left :
    ∀ {γ : Type} (y : List γ) (ms : List Bool), ms.length = y.length →
      List.zipWith (fun s e => !s && e) (y.map fun _ => false) ms = ms
  | _, [], [], _ => by simp
  | _, [], m :: ms, h => by simp at h
  | _, c :: y, [], h => by simp at h
  | _, c :: y, m :: ms, h => by
      simp only [List.map_cons, List.zipWith_cons_cons, Bool.not_false, Bool.true_and]
      rw [zipWith_false_left y ms (by simpa using h)]

theorem zipWith_map_same {α β γ δ : Type} (f : β → γ → δ) (g : α → β) (h : α → γ) :
    ∀ (l : List α),
      List.zipWith f (l.map g) (l.map h) = l.map fun x => f (g x) (h x)
  | [] => by simp
  | x :: l => by
      simp only [List.map_cons, List.zipWith_cons_cons]
      rw [zipWith_map_same f g h l]

theorem colAt_mem (y : List (List (Option ℚ))) (i : ℕ) (hi : i < y.length) :
    colAt y i ∈ y := by
  rw [colAt, List.getD_eq_getElem y [] hi]
  exact List.getElem_mem hi

/-- The stability verdict the loop body reaches for a column with data `c`
when the window starts `d` rows in (slope = second fitted coefficient). -/
def fitStable (P : CParams) (X : List (List ℚ)) (d : ℕ)
    (c : List (Option ℚ)) : Bool :=
  is_stable_ccdc_col ((olsBeta P.p (X.drop d) (c.drop d)).getD 1 0)
    (olsResid P.p (X.drop d) (c.drop d)) P.threshold

/-- The valid-observation recount a column with data `c` passes when the
window starts `d` rows in. -/
def fitEnough (p d : ℕ) (c : List (Option ℚ)) : Bool :=
  decide (3 * p < 2 * validCount (c.drop d))

theorem olsResid_length_eq {p : ℕ} {Xrows : List (List ℚ)}
    {col : List (Option ℚ)} (h : Xrows.length = col.length) :
    (olsResid p Xrows col).length = col.length := by
  rw [olsResid_length, h, Nat.min_self]

theorem residAt_length {P X y dates d S} (hwf : CWF P X y dates d S)
    (i : ℕ) (hi : i < y.length) :
    (residAt S i).length = (colAt y i).length := by
  rcases hwf.hfits i hi with ⟨_, hres⟩ | ⟨d2, hd2, _, hres⟩
  · rw [hres, List.length_map]
  · rw [hres, List.length_append, List.length_replicate, fitResid,
      olsResid_length, List.length_drop, List.length_drop, hwf.hXn,
      hwf.hcols (colAt y i) (colAt_mem y i hi), Nat.min_self]
    have := hwf.hcols (colAt y i) (colAt_mem y i hi)
    have := hwf.hd
    omega

theorem map_map_fuse {α β γ : Type} (f : α → β) (g : β → γ) (l : List α) :
    (l.map f).map g = l.map fun x => g (f x) := by
  rw [List.map_map]
  rfl

theorem ccdcStep_body (P : CParams) (X : List (List ℚ)) (y : List (List (Option ℚ)))
    (dates : List ℤ) (d : ℕ) (S : CState)
    (hp : 2 ≤ P.p) (hwf : CWF P X y dates d S) (hdone : loopDone S = false)
    (d0 : ℤ) (drest : List ℤ) (hdrop : S.datesSub.drop 2 = d0 :: drest) :
    ccdcStep P S =
      if yearLt (P.lastDate - d0) then
        StepRes.done
          (maskZip3 (fun _ c => some (olsBeta P.p (X.drop d) (c.drop d)))
            (activeMask S) S.beta y)
          (maskZip3 (fun old c =>
              List.replicate (old.length - (olsResid P.p (X.drop d) (c.drop d)).length)
                (none : Option ℚ) ++ olsResid P.p (X.drop d) (c.drop d))
            (activeMask S) S.residuals y)
          (maskZip3 (fun _ c => fitStable P X d c) (activeMask S) S.is_stable y)
      else
        StepRes.next
          { is_stable := maskZip3 (fun _ c => fitStable P X d c)
              (activeMask S) S.is_stable y
            enough := maskZip3 (fun _ c => fitEnough P.p (d + 2) c)
              (List.zipWith (fun m c => m && !(fitStable P X d c)) (activeMask S) y)
              S.enough y
            beta := maskZip3 (fun _ c => some (olsBeta P.p (X.drop d) (c.drop d)))
              (activeMask S) S.beta y
            residuals := maskZip3 (fun old c =>
                List.replicate (old.length - (olsResid P.p (X.drop d) (c.drop d)).length)
                  (none : Option ℚ) ++ olsResid P.p (X.drop d) (c.drop d))
              (activeMask S) S.residuals y
            ySub := (maskSelect
                (List.zipWith (fun m c => m && fitEnough P.p (d + 2) c)
                  (List.zipWith (fun m c => m && !(fitStable P X d c)) (activeMask S) y)
                  y) y).map (List.drop (d + 2))
            XSub := X.drop (d + 2)
            datesSub := d0 :: drest } := by
  have hactlen : (activeMask S).length = y.length := by
    rw [activeMask, List.length_zipWith, hwf.hst, hwf.hen, Nat.min_self]
  have hact1len : (List.zipWith (fun m c => m && !(fitStable P X d c))
      (activeMask S) y).length = y.length := by
    rw [List.length_zipWith, hactlen, Nat.min_self]
  have hBsub : S.ySub.map (olsBeta P.p S.XSub)
      = (maskSelect (activeMask S) y).map
          (fun c => olsBeta P.p (X.drop d) (c.drop d)) := by
    rw [hwf.hySub, hwf.hXSub, List.map_map]
    rfl
  have hRsub : S.ySub.map (olsResid P.p S.XSub)
      = (maskSelect (activeMask S) y).map
          (fun c => olsResid P.p (X.drop d) (c.drop d)) := by
    rw [hwf.hySub, hwf.hXSub, List.map_map]
    rfl
  have hslopes : getSlopes (S.ySub.map (olsBeta P.p S.XSub))
      = some ((maskSelect (activeMask S) y).map
          (fun c => (olsBeta P.p (X.drop d) (c.drop d)).getD 1 0)) := by
    rw [hBsub, getSlopes_eq _ ?_, List.map_map]
    · rfl
    · intro b hb
      simp only [List.mem_map] at hb
      obtain ⟨c, _, rfl⟩ := hb
      rw [olsBeta_length]
      omega
  have hactdef : activeMask S
      = List.zipWith (fun st en => !st && en) S.is_stable S.enough := rfl
  have hlen : (activeMask S).length = y.length := hactlen
  have hlb : (activeMask S).length = S.beta.length := hactlen.trans hwf.hb.symm
  have hls : (activeMask S).length = S.is_stable.length := hactlen.trans hwf.hst.symm
  have hlr : (activeMask S).length = S.residuals.length := hactlen.trans hwf.hr.symm
  have hlen1 : (List.zipWith (fun m c => m && !(fitStable P X d c))
      (activeMask S) y).length = y.length := hact1len
  have hle1 : (List.zipWith (fun m c => m && !(fitStable P X d c))
      (activeMask S) y).length = S.enough.length := hact1len.trans hwf.hen.symm
  have hsten : S.is_stable.length = S.enough.length := hwf.hst.trans hwf.hen.symm
  have hsty : S.is_stable.length = y.length := hwf.hst
  rw [ccdcStep, if_neg (by simp [hdone])]
  simp only [hslopes, hdrop]
  rw [hRsub, hBsub, zipWith_map_same, hwf.hySub, hwf.hXSub, List.drop_drop]
  simp only [map_map_fuse]
  rw [maskSet_map_maskSelect]
  rw [maskSet_map_maskSelect]
  rw [maskSetWith_map_maskSelect]
  rw [maskSelect_map_maskSelect]
  rw [maskSelect_map]
  simp only [map_map_fuse, List.drop_drop]
  rw [hactdef]
  rw [maskZip3_comm_zip _ S.is_stable S.enough y hsten hsty]
  rw [maskSet_map_maskSelect]
  rw [maskSelect_map_maskSelect]
  rw [maskSelect_map]
  simp only [fitStable, fitEnough]

theorem fitResid_length (P : CParams) (X : List (List ℚ)) (y : List (List (Option ℚ)))
    (dates : List ℤ) (d : ℕ) (hXn : X.length = dates.length)
    (i : ℕ) (hi : i < y.length) (hcol : (colAt y i).length = dates.length)
    (hd : d ≤ dates.length) :
    (olsResid P.p (X.drop d) ((colAt y i).drop d)).length = dates.length - d := by
  rw [olsResid_length_eq, List.length_drop, hcol]
  rw [List.length_drop, List.length_drop, hXn, hcol]

/-- Pointwise description of the coefficient, residual and stable-mask
accumulators after the write-backs of lines 72-81. -/
theorem updated_getD (P : CParams) (X : List (List ℚ)) (y : List (List (Option ℚ)))
    (dates : List ℤ) (d : ℕ) (S : CState) (hwf : CWF P X y dates d S)
    (i : ℕ) (hi : i < y.length) :
    (maskZip3 (fun _ c => some (olsBeta P.p (X.drop d) (c.drop d)))
        (activeMask S) S.beta y).getD i none
      = (if (activeMask S).getD i false = true
          then some (fitBeta P.p X y d i) else betaAt S i) ∧
    (maskZip3 (fun old c =>
          List.replicate (old.length - (olsResid P.p (X.drop d) (c.drop d)).length)
            (none : Option ℚ) ++ olsResid P.p (X.drop d) (c.drop d))
        (activeMask S) S.residuals y).getD i []
      = (if (activeMask S).getD i false = true
          then List.replicate d none ++ fitResid P.p X y d i else residAt S i) ∧
    (maskZip3 (fun _ c => fitStable P X d c)
        (activeMask S) S.is_stable y).getD i false
      = (if (activeMask S).getD i false = true
          then fitStable P X d (colAt y i) else stableAt S i) := by
  have hactlen : (activeMask S).length = y.length := by
    rw [activeMask, List.length_zipWith, hwf.hst, hwf.hen, Nat.min_self]
  have hia : i < (activeMask S).length := by rw [hactlen]; exact hi
  have hcol : (colAt y i).length = dates.length :=
    hwf.hcols (colAt y i) (colAt_mem y i hi)
  refine ⟨?_, ?_, ?_⟩
  · rw [maskZip3_getD _ _ _ _ i hia (hactlen.trans hwf.hb.symm) hactlen none []]
    rfl
  · rw [maskZip3_getD _ _ _ _ i hia (hactlen.trans hwf.hr.symm) hactlen [] []]
    by_cases hact : (activeMask S).getD i false = true
    · rw [if_pos hact, if_pos hact]
      have h1 : (residAt S i).length = (colAt y i).length :=
        residAt_length hwf i hi
      rw [show (y.getD i [] : List (Option ℚ)) = colAt y i from rfl,
        show (S.residuals.getD i []) = residAt S i from rfl,
        fitResid_length P X y dates d hwf.hXn i hi hcol hwf.hd, h1, hcol]
      have hd := hwf.hd
      rw [show dates.length - (dates.length - d) = d by omega]
      rfl
    · rw [if_neg hact, if_neg hact]
      rfl
  · rw [maskZip3_getD _ _ _ _ i hia (hactlen.trans hwf.hst.symm) hactlen false []]
    rfl

/-- The accumulators written back by a running iteration satisfy the output
contract. -/
theorem updated_outwf (P : CParams) (X : List (List ℚ)) (y : List (List (Option ℚ)))
    (dates : List ℤ) (d : ℕ) (S : CState) (hwf : CWF P X y dates d S) :
    OutWF P X y dates
      (maskZip3 (fun _ c => some (olsBeta P.p (X.drop d) (c.drop d)))
        (activeMask S) S.beta y)
      (maskZip3 (fun old c =>
          List.replicate (old.length - (olsResid P.p (X.drop d) (c.drop d)).length)
            (none : Option ℚ) ++ olsResid P.p (X.drop d) (c.drop d))
        (activeMask S) S.residuals y)
      (maskZip3 (fun _ c => fitStable P X d c) (activeMask S) S.is_stable y) := by
  refine ⟨?_, ?_, ?_, ?_, ?_, ?_⟩
  · rw [maskZip3_length, hwf.hb]
  · rw [maskZip3_length, hwf.hr]
  · rw [maskZip3_length, hwf.hst]
  · intro i hi
    obtain ⟨hbAt, hrAt, _⟩ := updated_getD P X y dates d S hwf i hi
    rw [hbAt, hrAt]
    by_cases hact : (activeMask S).getD i false = true
    · rw [if_pos hact, if_pos hact]
      exact Or.inr ⟨d, hwf.hd, rfl, rfl⟩
    · rw [if_neg hact, if_neg hact]
      rcases hwf.hfits i hi with ⟨h1, h2⟩ | ⟨d2, hd2, h1, h2⟩
      · exact Or.inl ⟨h1, h2⟩
      · exact Or.inr ⟨d2, hd2.trans hwf.hd, h1, h2⟩
  · intro i hi h0
    obtain ⟨hbAt, hrAt, hsAt⟩ := updated_getD P X y dates d S hwf i hi
    obtain ⟨hs, he, hb, hr⟩ := hwf.hexc i hi h0
    have hact : (activeMask S).getD i false = false := by
      rw [activeMask, zipWith_getD _ S.is_stable S.enough i
        (by rw [hwf.hst]; exact hi) (hwf.hst.trans hwf.hen.symm) false false false]
      rw [show S.is_stable.getD i false = stableAt S i from rfl,
        show S.enough.getD i false = enoughAt S i from rfl, hs, he]
      rfl
    rw [hbAt, hrAt, hsAt, if_neg (by rw [hact]; exact Bool.false_ne_true),
      if_neg (by rw [hact]; exact Bool.false_ne_true),
      if_neg (by rw [hact]; exact Bool.false_ne_true)]
    exact ⟨hs, hb, hr⟩
  · intro i hi h0
    obtain ⟨hbAt, _, _⟩ := updated_getD P X y dates d S hwf i hi
    rw [hbAt]
    by_cases hact : (activeMask S).getD i false = true
    · rw [if_pos hact]
      exact Option.some_ne_none _
    · rw [if_neg hact]
      rcases hwf.hQ i hi with h | h | h
      · exact absurd h hact
      · exact h
      · rw [h0] at h
        exact absurd h (by simp)

theorem act_getD (S : CState) (h : S.is_stable.length = S.enough.length)
    (i : ℕ) (hi : i < S.is_stable.length) :
    (activeMask S).getD i false = (!stableAt S i && enoughAt S i) := by
  rw [activeMask, zipWith_getD _ S.is_stable S.enough i hi h false false false]
  rfl

/-- The state assembled at the end of a full loop iteration (the `.next`
case of `ccdcStep_body`). -/
def nextState (P : CParams) (X : List (List ℚ)) (y : List (List (Option ℚ)))
    (d : ℕ) (S : CState) (d0 : ℤ) (drest : List ℤ) : CState where
  is_stable := maskZip3 (fun _ c => fitStable P X d c) (activeMask S) S.is_stable y
  enough := maskZip3 (fun _ c => fitEnough P.p (d + 2) c)
    (List.zipWith (fun m c => m && !(fitStable P X d c)) (activeMask S) y)
    S.enough y
  beta := maskZip3 (fun _ c => some (olsBeta P.p (X.drop d) (c.drop d)))
    (activeMask S) S.beta y
  residuals := maskZip3 (fun old c =>
      List.replicate (old.length - (olsResid P.p (X.drop d) (c.drop d)).length)
        (none : Option ℚ) ++ olsResid P.p (X.drop d) (c.drop d))
    (activeMask S) S.residuals y
  ySub := (maskSelect
      (List.zipWith (fun m c => m && fitEnough P.p (d + 2) c)
        (List.zipWith (fun m c => m && !(fitStable P X d c)) (activeMask S) y)
        y) y).map (List.drop (d + 2))
  XSub := X.drop (d + 2)
  datesSub := d0 :: drest

theorem nextState_act (P : CParams) (X : List (List ℚ)) (y : List (List (Option ℚ)))
    (d : ℕ) (S : CState) (d0 : ℤ) (drest : List ℤ)
    (hsten : S.is_stable.length = S.enough.length)
    (hsty : S.is_stable.length = y.length) :
    activeMask (nextState P X y d S d0 drest)
      = List.zipWith (fun m c => m && fitEnough P.p (d + 2) c)
          (List.zipWith (fun m c => m && !(fitStable P X d c)) (activeMask S) y)
          y :=
  maskZip3_act2 (fitStable P X d) (fitEnough P.p (d + 2)) S.is_stable S.enough y
    hsten hsty

theorem nextState_enough_getD (P : CParams) (X : List (List ℚ))
    (y : List (List (Option ℚ))) (dates : List ℤ) (d : ℕ) (S : CState)
    (hwf : CWF P X y dates d S) (d0 : ℤ) (drest : List ℤ)
    (i : ℕ) (hi : i < y.length) :
    enoughAt (nextState P X y d S d0 drest) i
      = (if ((activeMask S).getD i false && !(fitStable P X d (colAt y i))) = true
          then fitEnough P.p (d + 2) (colAt y i) else enoughAt S i) := by
  have hactlen : (activeMask S).length = y.length := by
    rw [activeMask, List.length_zipWith, hwf.hst, hwf.hen, Nat.min_self]
  have hact1len : (List.zipWith (fun m c => m && !(fitStable P X d c))
      (activeMask S) y).length = y.length := by
    rw [List.length_zipWith, hactlen, Nat.min_self]
  show (maskZip3 _ _ _ _).getD i false = _
  rw [maskZip3_getD _ _ _ _ i (by rw [hact1len]; exact hi)
    (hact1len.trans hwf.hen.symm) hact1len false []]
  rw [zipWith_getD _ (activeMask S) y i (by rw [hactlen]; exact hi) hactlen
    false [] false]
  rfl

theorem bool_not_true_eq_false {b : Bool} (h : ¬ b = true) : b = false := by
  cases b
  · rfl
  · exact absurd rfl h

theorem nextState_wf (P : CParams) (X : List (List ℚ)) (y : List (List (Option ℚ)))
    (dates : List ℤ) (d : ℕ) (S : CState)
    (hwf : CWF P X y dates d S) (hwin : 4 ≤ dates.length - d)
    (d0 : ℤ) (drest : List ℤ) (hdd2 : S.datesSub.drop 2 = d0 :: drest) :
    CWF P X y dates (d + 2) (nextState P X y d S d0 drest) := by
  have hactlen : (activeMask S).length = y.length := by
    rw [activeMask, List.length_zipWith, hwf.hst, hwf.hen, Nat.min_self]
  have hact1len : (List.zipWith (fun m c => m && !(fitStable P X d c))
      (activeMask S) y).length = y.length := by
    rw [List.length_zipWith, hactlen, Nat.min_self]
  have hsten : S.is_stable.length = S.enough.length := hwf.hst.trans hwf.hen.symm
  have hsty : S.is_stable.length = y.length := hwf.hst
  have hact2 := nextState_act P X y d S d0 drest hsten hsty
  have hstAt : ∀ i, i < y.length → stableAt (nextState P X y d S d0 drest) i
      = (if (activeMask S).getD i false = true
          then fitStable P X d (colAt y i) else stableAt S i) :=
    fun i hi => (updated_getD P X y dates d S hwf i hi).2.2
  have hbAt : ∀ i, i < y.length → betaAt (nextState P X y d S d0 drest) i
      = (if (activeMask S).getD i false = true
          then some (fitBeta P.p X y d i) else betaAt S i) :=
    fun i hi => (updated_getD P X y dates d S hwf i hi).1
  have hrAt : ∀ i, i < y.length → residAt (nextState P X y d S d0 drest) i
      = (if (activeMask S).getD i false = true
          then List.replicate d none ++ fitResid P.p X y d i else residAt S i) :=
    fun i hi => (updated_getD P X y dates d S hwf i hi).2.1
  have henAt := nextState_enough_getD P X y dates d S hwf d0 drest
  have hactAt : ∀ i, i < y.length →
      (activeMask S).getD i false = (!stableAt S i && enoughAt S i) :=
    fun i hi => act_getD S hsten i (by rw [hwf.hst]; exact hi)
  refine ⟨hwf.hXn, hwf.hcols, by omega, ?_, ?_, ?_, ?_, rfl, ?_, ?_, ?_, ?_, ?_, ?_, ?_⟩
  · show (maskZip3 _ _ _ _).length = _
    rw [maskZip3_length, hwf.hst]
  · show (maskZip3 _ _ _ _).length = _
    rw [maskZip3_length, hwf.hen]
  · show (maskZip3 _ _ _ _).length = _
    rw [maskZip3_length, hwf.hb]
  · show (maskZip3 _ _ _ _).length = _
    rw [maskZip3_length, hwf.hr]
  · show (d0 :: drest : List ℤ) = _
    rw [← hdd2, hwf.hdates, List.drop_drop]
  · show (maskSelect _ y).map (List.drop (d + 2)) = _
    rw [hact2]
  · -- a stable column still has enough data
    intro i hi hstb
    rw [hstAt i hi] at hstb
    rw [henAt i hi]
    by_cases hact : (activeMask S).getD i false = true
    · rw [if_pos hact] at hstb
      rw [hact, hstb]
      simp only [Bool.not_true, Bool.and_false, Bool.true_and]
      rw [if_neg (by simp)]
      have := hactAt i hi
      rw [hact] at this
      cases hen : enoughAt S i
      · rw [hen] at this
        simp at this
      · rfl
    · rw [if_neg hact] at hstb
      rw [bool_not_true_eq_false hact]
      simp only [Bool.false_and]
      rw [if_neg (by simp)]
      exact hwf.hstab_en i hi hstb
  · -- every active column passed the recount on the shrunk window
    intro i hi hact2i
    rw [hact2] at hact2i
    rw [zipWith_getD _ _ y i (by rw [hact1len]; exact hi) hact1len false [] false]
      at hact2i
    rw [Bool.and_eq_true] at hact2i
    have h3 : fitEnough P.p (d + 2) (colAt y i) = true := hact2i.2
    rw [fitEnough, decide_eq_true_eq] at h3
    exact h3
  · -- accumulator characterisation
    intro i hi
    rw [hbAt i hi, hrAt i hi]
    by_cases hact : (activeMask S).getD i false = true
    · rw [if_pos hact, if_pos hact]
      exact Or.inr ⟨d, by omega, rfl, rfl⟩
    · rw [if_neg hact, if_neg hact]
      rcases hwf.hfits i hi with ⟨h1, h2⟩ | ⟨d2, hd2, h1, h2⟩
      · exact Or.inl ⟨h1, h2⟩
      · exact Or.inr ⟨d2, by omega, h1, h2⟩
  · -- columns excluded at entry stay wholly untouched
    intro i hi h0
    obtain ⟨hs, he, hb0, hr0⟩ := hwf.hexc i hi h0
    have hact : (activeMask S).getD i false = false := by
      rw [hactAt i hi, hs, he]
      rfl
    have hactne : ¬ (activeMask S).getD i false = true := by
      rw [hact]
      exact Bool.false_ne_true
    refine ⟨?_, ?_, ?_, ?_⟩
    · rw [hstAt i hi, if_neg hactne]
      exact hs
    · rw [henAt i hi, hact]
      simp only [Bool.false_and]
      rw [if_neg (by simp)]
      exact he
    · rw [hbAt i hi, if_neg hactne]
      exact hb0
    · rw [hrAt i hi, if_neg hactne]
      exact hr0
  · -- active, fitted, or excluded at entry
    intro i hi
    by_cases hact : (activeMask S).getD i false = true
    · refine Or.inr (Or.inl ?_)
      rw [hbAt i hi, if_pos hact]
      exact Option.some_ne_none _
    · rcases hwf.hQ i hi with h | h | h
      · exact absurd h hact
      · refine Or.inr (Or.inl ?_)
        rw [hbAt i hi, if_neg hact]
        exact h
      · exact Or.inr (Or.inr h)

/-- Exhaustive case analysis of one loop iteration from a well-formed
state: the loop either returns a triple satisfying the output contract, or
steps to a well-formed state whose window is two rows shorter, with the
stable flags and the exhausted-data flags absorbing.  In particular no
iteration from a well-formed state (with at least two design columns)
raises an error. -/
theorem ccdcStep_cases (P : CParams) (X : List (List ℚ)) (y : List (List (Option ℚ)))
    (dates : List ℤ) (d : ℕ) (S : CState)
    (hp : 2 ≤ P.p) (hwf : CWF P X y dates d S) :
    (∃ b r st, ccdcStep P S = .done b r st ∧ OutWF P X y dates b r st) ∨
    (∃ S2, ccdcStep P S = .next S2 ∧ CWF P X y dates (d + 2) S2 ∧
      S2.datesSub.length + 2 = S.datesSub.length ∧
      (∀ i < y.length, stableAt S i = true → stableAt S2 i = true) ∧
      (∀ i < y.length, enoughAt S i = false → enoughAt S2 i = false)) := by
  cases hld : loopDone S with
  | true =>
      left
      refine ⟨S.beta, S.residuals, S.is_stable, ?_, ?_⟩
      · rw [ccdcStep, if_pos hld]
      · refine ⟨hwf.hb, hwf.hr, hwf.hst, ?_, ?_, ?_⟩
        · intro i hi
          rcases hwf.hfits i hi with ⟨h1, h2⟩ | ⟨d2, hd2, h1, h2⟩
          · exact Or.inl ⟨h1, h2⟩
          · exact Or.inr ⟨d2, hd2.trans hwf.hd, h1, h2⟩
        · intro i hi h0
          obtain ⟨hs, _, hb2, hr2⟩ := hwf.hexc i hi h0
          exact ⟨hs, hb2, hr2⟩
        · intro i hi h0
          rcases hwf.hQ i hi with h | h | h
          · have hfalse : (activeMask S).getD i false = false :=
              loopDone_all_inactive S.is_stable S.enough hld i
            rw [h] at hfalse
            exact absurd hfalse (by simp)
          · exact h
          · rw [h0] at h
            exact absurd h (by simp)
  | false =>
      obtain ⟨i0, hi0, hact0⟩ := loopDone_false_active S.is_stable S.enough hld
      have hi0y : i0 < y.length := hwf.hst ▸ hi0
      have hact0a : (activeMask S).getD i0 false = true := hact0
      have hcnt0 := hwf.hcnt i0 hi0y hact0a
      have hcol0 : (colAt y i0).length = dates.length :=
        hwf.hcols _ (colAt_mem y i0 hi0y)
      have hvc : validCount ((colAt y i0).drop d) ≤ dates.length - d := by
        calc validCount ((colAt y i0).drop d) ≤ ((colAt y i0).drop d).length :=
            List.length_filterMap_le _ _
          _ = dates.length - d := by rw [List.length_drop, hcol0]
      have hwin : 4 ≤ dates.length - d := by
        have hp2 := hp
        omega
      have hdlen : S.datesSub.length = dates.length - d := by
        rw [hwf.hdates, List.length_drop]
      cases hdd2 : S.datesSub.drop 2 with
      | nil =>
          exfalso
          have h2 : S.datesSub.length - 2 = 0 := by
            have := congrArg List.length hdd2
            simpa [List.length_drop] using this
          omega
      | cons d0 drest =>
          have hbody := ccdcStep_body P X y dates d S hp hwf hld d0 drest hdd2
          by_cases hyr : yearLt (P.lastDate - d0) = true
          · rw [if_pos hyr] at hbody
            left
            exact ⟨_, _, _, hbody, updated_outwf P X y dates d S hwf⟩
          · rw [if_neg hyr] at hbody
            right
            refine ⟨nextState P X y d S d0 drest, hbody, ?_, ?_, ?_, ?_⟩
            · exact nextState_wf P X y dates d S hwf hwin d0 drest hdd2
            · show (d0 :: drest).length + 2 = S.datesSub.length
              have h5 : (S.datesSub.drop 2).length = (d0 :: drest).length :=
                congrArg List.length hdd2
              rw [List.length_drop] at h5
              rw [← h5]
              omega
            · intro i hi hstb
              have hstAt : stableAt (nextState P X y d S d0 drest) i
                  = (if (activeMask S).getD i false = true
                      then fitStable P X d (colAt y i) else stableAt S i) :=
                (updated_getD P X y dates d S hwf i hi).2.2
              have hactAt := act_getD S (hwf.hst.trans hwf.hen.symm) i
                (by rw [hwf.hst]; exact hi)
              rw [hstAt, hactAt, hstb]
              simp only [Bool.not_true, Bool.false_and]
              rw [if_neg (by simp)]
            · intro i hi hen
              have henAt := nextState_enough_getD P X y dates d S hwf d0 drest i hi
              have hactAt := act_getD S (hwf.hst.trans hwf.hen.symm) i
                (by rw [hwf.hst]; exact hi)
              rw [henAt, hactAt, hen]
              simp only [Bool.and_false, Bool.false_and]
              rw [if_neg (by simp)]

theorem ccdcLoop_ok (P : CParams) (X : List (List ℚ)) (y : List (List (Option ℚ)))
    (dates : List ℤ) (hp : 2 ≤ P.p) :
    ∀ (fuel d : ℕ) (S : CState), CWF P X y dates d S →
      S.datesSub.length + 1 ≤ fuel →
      ∃ b r st, ccdcLoop P fuel S = .ok (b, r, st) ∧ OutWF P X y dates b r st
  | 0, d, S, hwf, hfuel => absurd hfuel (by omega)
  | fuel + 1, d, S, hwf, hfuel => by
      rcases ccdcStep_cases P X y dates d S hp hwf with
        ⟨b, r, st, hstep, hout⟩ | ⟨S2, hstep, hwf2, hdec, _, _⟩
      · exact ⟨b, r, st, by rw [ccdcLoop, hstep], hout⟩
      · obtain ⟨b, r, st, hloop, hout⟩ :=
          ccdcLoop_ok P X y dates hp fuel (d + 2) S2 hwf2 (by omega)
        exact ⟨b, r, st, by rw [ccdcLoop, hstep]; exact hloop, hout⟩

theorem ccdcStep_err (P : CParams) (S : CState) (e : CcdcErr)
    (h : ccdcStep P S = .err e) : e = .indexError := by
  rw [ccdcStep] at h
  split at h
  · simp at h
  · split at h
    all_goals try split at h
    all_goals try split at h
    all_goals first
      | (injection h with h2; exact h2.symm)
      | (simp at h
         done)
      | (rcases hg : getSlopes (List.map (olsBeta P.p S.XSub) S.ySub) with _ | sl <;>
          simp only [hg] at h <;> simp_all)

theorem ccdcLoop_ne_valueError (P : CParams) :
    ∀ (fuel : ℕ) (S : CState), ccdcLoop P fuel S ≠ .error .valueError
  | 0, S => by
      rw [ccdcLoop]
      simp
  | fuel + 1, S => by
      rw [ccdcLoop]
      cases hstep : ccdcStep P S with
      | err e =>
          have he := ccdcStep_err P S e hstep
          subst he
          simp
      | done b r st => simp
      | next S2 => exact ccdcLoop_ne_valueError P fuel S2

/-- The state built at lines 49-66 before the loop starts. -/
def initState (p : ℕ) (X : List (List ℚ)) (y : List (List (Option ℚ)))
    (dates : List ℤ) : CState where
  is_stable := y.map fun _ => false
  enough := y.map fun c => decide (3 * p < 2 * validCount c)
  beta := y.map fun _ => none
  residuals := y.map fun c => c.map fun _ => none
  ySub := maskSelect (y.map fun c => decide (3 * p < 2 * validCount c)) y
  XSub := X
  datesSub := dates

theorem initState_wf (p : ℕ) (thr : ℚ) (last : ℤ) (X : List (List ℚ))
    (y : List (List (Option ℚ))) (dates : List ℤ)
    (hXn : X.length = dates.length)
    (hcols : ∀ c ∈ y, c.length = dates.length) :
    CWF ⟨p, thr, last⟩ X y dates 0 (initState p X y dates) := by
  have hact : activeMask (initState p X y dates)
      = y.map fun c => decide (3 * p < 2 * validCount c) := by
    show List.zipWith _ (y.map fun _ => false) _ = _
    exact zipWith_false_left y _ (by
      show (y.map fun c => decide (3 * p < 2 * validCount c)).length = y.length
      rw [List.length_map])
  have henAt : ∀ i, i < y.length →
      (y.map fun c => decide (3 * p < 2 * validCount c)).getD i false
        = decide (3 * p < 2 * validCount (colAt y i)) :=
    fun i hi => map_getD _ y i hi [] false
  refine ⟨hXn, hcols, by omega, ?_, ?_, ?_, ?_, (List.drop_zero X).symm,
    (List.drop_zero dates).symm, ?_, ?_, ?_, ?_, ?_, ?_⟩
  · rw [show (initState p X y dates).is_stable = y.map fun _ => false from rfl,
      List.length_map]
  · show (y.map fun c => decide (3 * p < 2 * validCount c)).length = y.length
    rw [List.length_map]
  · rw [show (initState p X y dates).beta = y.map fun _ => none from rfl,
      List.length_map]
  · rw [show (initState p X y dates).residuals
      = y.map fun c => c.map fun _ => none from rfl, List.length_map]
  · rw [hact]
    have : (List.drop 0 : List (Option ℚ) → List (Option ℚ)) = id := by
      funext c
      exact List.drop_zero c
    rw [this, List.map_id]
    rfl
  · intro i hi h
    have : (y.map fun _ => false).getD i false = false := map_getD _ y i hi [] false
    rw [show stableAt (initState p X y dates) i
      = (y.map fun _ => false).getD i false from rfl, this] at h
    exact absurd h (by simp)
  · intro i hi hai
    rw [hact, henAt i hi, decide_eq_true_eq] at hai
    rw [List.drop_zero]
    exact hai
  · intro i hi
    refine Or.inl ⟨?_, ?_⟩
    · exact map_getD _ y i hi [] none
    · exact map_getD _ y i hi [] []
  · intro i hi h0
    rw [enough0] at h0
    refine ⟨map_getD _ y i hi [] false, ?_, map_getD _ y i hi [] none,
      map_getD _ y i hi [] []⟩
    rw [show enoughAt (initState p X y dates) i
      = (y.map fun c => decide (3 * p < 2 * validCount c)).getD i false from rfl,
      henAt i hi]
    exact h0
  · intro i hi
    cases h0 : enough0 p y i with
    | true =>
        refine Or.inl ?_
        rw [hact, henAt i hi]
        exact h0
    | false => exact Or.inr (Or.inr rfl)

/-! ## Entry guards and end-to-end runs of `ccdc_stable_fit` -/

theorem getLastD_cons_eq (a : ℤ) (l : List ℤ) (d e : ℤ) :
    (a :: l).getLastD d = (a :: l).getLastD e := by
  induction l generalizing a with
  | nil => rfl
  | cons b bs ih => exact ih b

theorem yearLt_iff (d : ℤ) : yearLt d = true ↔ d < 366 := by
  rw [yearLt, decide_eq_true_eq, td64Years]
  rcases le_or_lt 0 d with h | h
  · rw [if_pos h]
    omega
  · rw [if_neg (by omega)]
    omega

theorem ccdc_stable_fit_cons (p : ℕ) (thr : ℚ) (X : List (List ℚ))
    (y : List (List (Option ℚ))) (first : ℤ) (rest : List ℤ) :
    ccdc_stable_fit p X y (first :: rest) thr
      = if yearLt ((first :: rest).getLastD first - first)
          then .error .valueError
          else ccdcLoop ⟨p, thr, (first :: rest).getLastD first⟩
            ((first :: rest).length + 1) (initState p X y (first :: rest)) := rfl

theorem ccdc_stable_fit_out (p : ℕ) (thr : ℚ) (X : List (List ℚ))
    (y : List (List (Option ℚ))) (dates : List ℤ)
    (b : List (Option (List ℚ))) (r : List (List (Option ℚ))) (st : List Bool)
    (hp : 2 ≤ p) (hXn : X.length = dates.length)
    (hcols : ∀ c ∈ y, c.length = dates.length)
    (hok : ccdc_stable_fit p X y dates thr = .ok (b, r, st)) :
    ∃ last, OutWF ⟨p, thr, last⟩ X y dates b r st := by
  cases dates with
  | nil =>
      rw [show ccdc_stable_fit p X y [] thr = .error .indexError from rfl] at hok
      cases hok
  | cons first rest =>
      rw [ccdc_stable_fit_cons] at hok
      by_cases hyl : yearLt ((first :: rest).getLastD first - first) = true
      · rw [if_pos hyl] at hok
        cases hok
      · rw [if_neg hyl] at hok
        obtain ⟨b2, r2, st2, hloop, hout⟩ :=
          ccdcLoop_ok ⟨p, thr, (first :: rest).getLastD first⟩ X y (first :: rest)
            hp ((first :: rest).length + 1) 0 (initState p X y (first :: rest))
            (initState_wf p thr ((first :: rest).getLastD first) X y (first :: rest)
              hXn hcols)
            (by show (first :: rest).length + 1 ≤ (first :: rest).length + 1
                exact le_rfl)
        rw [hloop] at hok
        injection hok with hok2
        injection hok2 with h1 hok3
        injection hok3 with h2 h3
        subst h1
        subst h2
        subst h3
        exact ⟨(first :: rest).getLastD first, hout⟩

/-- C8: for every well-formed input (at least two design columns, one design
row and one residual row per date, at least one pixel column per date) whose
initial date span covers at least one year, `ccdc_stable_fit` returns a
complete `(coefficients, residuals, stability-flags)` triple with exactly one
entry per pixel column; in particular no out-of-range indexing — neither the
`dates[0]` read on an exhausted date array during window shrinking nor the
`beta_sub[1, :]` slope read — is reachable, so the only alternative outcome
on other inputs is a single explicit typed failure for the whole batch. -/
theorem ccdc_stable_fit_total (p : ℕ) (thr : ℚ) (X : List (List ℚ))
    (y : List (List (Option ℚ))) (dates : List ℤ)
    (hp : 2 ≤ p) (hXn : X.length = dates.length)
    (hcols : ∀ c ∈ y, c.length = dates.length)
    (hne : dates ≠ [])
    (hyear : yearLt (dates.getLastD 0 - dates.headD 0) = false) :
    ∃ b r st, ccdc_stable_fit p X y dates thr = .ok (b, r, st) ∧
      b.length = y.length ∧ r.length = y.length ∧ st.length = y.length := by
  cases dates with
  | nil => exact absurd rfl hne
  | cons first rest =>
      have hyl : yearLt ((first :: rest).getLastD first - first) = false := by
        rw [getLastD_cons_eq first rest first 0]
        exact hyear
      rw [ccdc_stable_fit_cons, if_neg (by rw [hyl]; exact Bool.false_ne_true)]
      obtain ⟨b, r, st, hloop, hout⟩ :=
        ccdcLoop_ok ⟨p, thr, (first :: rest).getLastD first⟩ X y (first :: rest)
          hp ((first :: rest).length + 1) 0 (initState p X y (first :: rest))
          (initState_wf p thr ((first :: rest).getLastD first) X y (first :: rest)
            hXn hcols)
          (by show (first :: rest).length + 1 ≤ (first :: rest).length + 1
              exact le_rfl)
      exact ⟨b, r, st, hloop, hout.hbl, hout.hrl, hout.hstl⟩

theorem ccdc_stable_fit_total_witness :
    ∃ b r st,
      ccdc_stable_fit 2 [[1, 0], [1, 1]] [[none, none]] [0, 400] 3
        = .ok (b, r, st) ∧
      b.length = ([[none, none]] : List (List (Option ℚ))).length ∧
      r.length = ([[none, none]] : List (List (Option ℚ))).length ∧
      st.length = ([[none, none]] : List (List (Option ℚ))).length :=
  ccdc_stable_fit_total 2 3 [[1, 0], [1, 1]] [[none, none]] [0, 400]
    (by decide) rfl (by decide) (by decide) (by decide)

/-- C4: `ccdc_stable_fit` returns its explicit `ValueError` if and only if
the span from the first to the last entry of `dates` is below one full year
— under numpy's `timedelta64[Y]` conversion, exactly when that span is less
than 366 days, i.e. at most 365 days (negative spans included).  The test
reads only `dates`, never the pixel matrix `y`, so it is a whole-batch
precondition, and the failure is the call's only outcome: no partial output
accompanies it. -/
theorem ccdc_stable_fit_valueError_iff (p : ℕ) (thr : ℚ) (X : List (List ℚ))
    (y : List (List (Option ℚ))) (first : ℤ) (rest : List ℤ) :
    ccdc_stable_fit p X y (first :: rest) thr = .error .valueError ↔
      (first :: rest).getLastD 0 - first < 366 := by
  rw [ccdc_stable_fit_cons, getLastD_cons_eq first rest first 0]
  by_cases hyl : yearLt ((first :: rest).getLastD 0 - first) = true
  · rw [if_pos hyl]
    exact iff_of_true rfl ((yearLt_iff _).1 hyl)
  · rw [if_neg hyl]
    constructor
    · intro h
      exact absurd h (ccdcLoop_ne_valueError _ _ _)
    · intro h
      exact absurd ((yearLt_iff _).2 h) hyl

/-- A concrete end-to-end run: the single pixel column has no valid
observation, so it is excluded at entry and the loop exits immediately. -/
theorem ccdcRun_trivial :
    ccdc_stable_fit 2 [[1, 0], [1, 1]] [[none, none]] [0, 400] 3
      = .ok ([none], [[none, none]], [false]) := rfl

/-- C3: whenever `ccdc_stable_fit` returns, a pixel column was eligible for
fitting iff twice its count of valid observations exceeds three times the
design-column count (`count > 1.5 p` exactly); a column failing this test at
entry comes back with stability flag `false`, coefficient vector entirely
missing and residual column entirely the missing sentinel, while a column
passing it always comes back with a fitted coefficient vector. -/
theorem ccdc_stable_fit_exclusion (p : ℕ) (thr : ℚ) (X : List (List ℚ))
    (y : List (List (Option ℚ))) (dates : List ℤ)
    (b : List (Option (List ℚ))) (r : List (List (Option ℚ))) (st : List Bool)
    (i : ℕ)
    (hp : 2 ≤ p) (hXn : X.length = dates.length)
    (hcols : ∀ c ∈ y, c.length = dates.length)
    (hok : ccdc_stable_fit p X y dates thr = .ok (b, r, st))
    (hi : i < y.length) :
    (¬ 3 * p < 2 * validCount (colAt y i) →
      st.getD i false = false ∧ b.getD i none = none ∧
      r.getD i [] = (colAt y i).map fun _ => none) ∧
    (3 * p < 2 * validCount (colAt y i) → b.getD i none ≠ none) := by
  obtain ⟨last, hout⟩ := ccdc_stable_fit_out p thr X y dates b r st hp hXn hcols hok
  constructor
  · intro hcnt
    have h0 : enough0 p y i = false := by
      rw [enough0, decide_eq_false_iff_not]
      exact hcnt
    exact hout.hexc i hi h0
  · intro hcnt
    have h0 : enough0 p y i = true := by
      rw [enough0]
      exact decide_eq_true hcnt
    exact hout.hfit i hi h0

theorem ccdc_stable_fit_exclusion_witness :
    (¬ 3 * 2 < 2 * validCount (colAt [[none, none]] 0) →
      ([false] : List Bool).getD 0 false = false ∧
      ([none] : List (Option (List ℚ))).getD 0 none = none ∧
      ([[none, none]] : List (List (Option ℚ))).getD 0 []
        = (colAt [[none, none]] 0).map fun _ => none) ∧
    (3 * 2 < 2 * validCount (colAt [[none, none]] 0) →
      ([none] : List (Option (List ℚ))).getD 0 none ≠ none) :=
  ccdc_stable_fit_exclusion 2 3 [[1, 0], [1, 1]] [[none, none]] [0, 400]
    [none] [[none, none]] [false] 0 (by decide) rfl (by decide)
    ccdcRun_trivial (by decide)

/-- C5: in the residual matrix `ccdc_stable_fit` returns, an unfitted column
is entirely the missing sentinel, and a fitted column consists of exactly
`d2` leading missing sentinels — the rows shrunk away by the window, never
zero, overwriting the residuals of earlier longer windows — followed by the
residuals of the final fitting window, which starts `d2` rows into the
original time axis and reaches its end. -/
theorem ccdc_stable_fit_residual_window (p : ℕ) (thr : ℚ) (X : List (List ℚ))
    (y : List (List (Option ℚ))) (dates : List ℤ)
    (b : List (Option (List ℚ))) (r : List (List (Option ℚ))) (st : List Bool)
    (i : ℕ)
    (hp : 2 ≤ p) (hXn : X.length = dates.length)
    (hcols : ∀ c ∈ y, c.length = dates.length)
    (hok : ccdc_stable_fit p X y dates thr = .ok (b, r, st))
    (hi : i < y.length) :
    (b.getD i none = none ∧ r.getD i [] = (colAt y i).map fun _ => none) ∨
    ∃ d2, d2 ≤ dates.length ∧
      b.getD i none = some (fitBeta p X y d2 i) ∧
      r.getD i [] = List.replicate d2 none ++ fitResid p X y d2 i ∧
      (fitResid p X y d2 i).length = (colAt y i).length - d2 := by
  obtain ⟨last, hout⟩ := ccdc_stable_fit_out p thr X y dates b r st hp hXn hcols hok
  have hcl : (colAt y i).length = dates.length := hcols _ (colAt_mem y i hi)
  rcases hout.hfits i hi with h | ⟨d2, hd2, hb, hr⟩
  · exact Or.inl h
  · refine Or.inr ⟨d2, hd2, hb, hr, ?_⟩
    rw [fitResid, olsResid_length, List.length_drop, List.length_drop, hcl, hXn,
      min_self]

theorem ccdc_stable_fit_residual_window_witness :
    (([none] : List (Option (List ℚ))).getD 0 none = none ∧
      ([[none, none]] : List (List (Option ℚ))).getD 0 []
        = (colAt [[none, none]] 0).map fun _ => none) ∨
    ∃ d2, d2 ≤ ([0, 400] : List ℤ).length ∧
      ([none] : List (Option (List ℚ))).getD 0 none
        = some (fitBeta 2 [[1, 0], [1, 1]] [[none, none]] d2 0) ∧
      ([[none, none]] : List (List (Option ℚ))).getD 0 []
        = List.replicate d2 none ++ fitResid 2 [[1, 0], [1, 1]] [[none, none]] d2 0 ∧
      (fitResid 2 [[1, 0], [1, 1]] [[none, none]] d2 0).length
        = (colAt [[none, none]] 0).length - d2 :=
  ccdc_stable_fit_residual_window 2 3 [[1, 0], [1, 1]] [[none, none]] [0, 400]
    [none] [[none, none]] [false] 0 (by decide) rfl (by decide)
    ccdcRun_trivial (by decide)

/-! ## The per-column state partition of the controller (C6) -/

/-- The three states of a pixel column during the controller's iteration. -/
inductive PixelState where
  | stable
  | insufficient
  | iterating
deriving DecidableEq

/-- Classification of column `i` in a loop state: stable when its stability
flag is set, otherwise still-iterating when its enough-data flag is set,
otherwise insufficient-data. -/
def colState (S : CState) (i : ℕ) : PixelState :=
  if stableAt S i then .stable
  else if enoughAt S i then .iterating
  else .insufficient

theorem colState_stable_iff (S : CState) (i : ℕ)
    (hse : stableAt S i = true → enoughAt S i = true) :
    (colState S i = .stable ↔ stableAt S i = true) ∧
    (colState S i = .insufficient ↔
      stableAt S i = false ∧ enoughAt S i = false) := by
  rw [colState]
  cases hst : stableAt S i with
  | true =>
      rw [if_pos rfl]
      refine ⟨iff_of_true rfl rfl, iff_of_false (by simp) ?_⟩
      rw [hse hst]
      simp
  | false =>
      rw [if_neg (by simp)]
      cases hen : enoughAt S i with
      | true =>
          rw [if_pos rfl]
          exact ⟨iff_of_false (by simp) (by simp), iff_of_false (by simp) (by simp)⟩
      | false =>
          rw [if_neg (by simp)]
          exact ⟨iff_of_false (by simp) (by simp), iff_of_true rfl ⟨rfl, rfl⟩⟩

/-- C6: at every well-formed loop state each pixel column is in exactly one
of the three states stable / insufficient-data / still-iterating (the
classifier is a total function and a stable column always still counts as
having enough data, so the stable and insufficient readings never overlap),
and an iteration of the loop that continues moves no column out of the
stable or the insufficient-data state: the stability flag of an already
stable column is not re-evaluated, and an insufficient column is never
fitted again. -/
theorem ccdc_colState_partition (P : CParams) (X : List (List ℚ))
    (y : List (List (Option ℚ))) (dates : List ℤ) (d : ℕ) (S S2 : CState)
    (i : ℕ)
    (hp : 2 ≤ P.p) (hwf : CWF P X y dates d S)
    (hstep : ccdcStep P S = .next S2) (hi : i < y.length) :
    (stableAt S i = true → enoughAt S i = true) ∧
    (colState S i = .stable → colState S2 i = .stable) ∧
    (colState S i = .insufficient → colState S2 i = .insufficient) := by
  rcases ccdcStep_cases P X y dates d S hp hwf with
    ⟨b, r, st, hd, _⟩ | ⟨S2', hstep', hwf2, _, hmonoS, hmonoE⟩
  · rw [hd] at hstep
    cases hstep
  · rw [hstep'] at hstep
    injection hstep with h
    subst h
    have hcs := colState_stable_iff S i (hwf.hstab_en i hi)
    have hcs2 := colState_stable_iff S2' i (hwf2.hstab_en i hi)
    refine ⟨hwf.hstab_en i hi, ?_, ?_⟩
    · intro h
      exact hcs2.1.2 (hmonoS i hi (hcs.1.1 h))
    · intro h
      obtain ⟨hst, hen⟩ := hcs.2.1 h
      have hen2 : enoughAt S2' i = false := hmonoE i hi hen
      have hst2 : stableAt S2' i = false := by
        cases hst2 : stableAt S2' i with
        | true => rw [hwf2.hstab_en i hi hst2] at hen2; cases hen2
        | false => rfl
      exact hcs2.2.2 ⟨hst2, hen2⟩

/-- A concrete loop iteration: the first pixel column is active and fitted
(coefficients `[0, 0]`, residuals all zero, not yet stable), the second has
too few valid observations and stays untouched; after shrinking, the first
column no longer has enough data, so the next state has no active column. -/
theorem ccdcStep_concrete :
    ccdcStep ⟨2, 3, 800⟩ (initState 2 [[1, 0], [1, 1], [1, 2], [1, 3]]
        [[some 0, some 0, some 0, some 0], [some 0, none, none, none]]
        [0, 1, 2, 800])
      = .next ⟨[false, false], [false, false], [some [0, 0], none],
          [[some 0, some 0, some 0, some 0], [none, none, none, none]],
          [], [[1, 2], [1, 3]], [2, 800]⟩ := by
  norm_num [ccdcStep, initState, loopDone, activeMask, maskSet, maskSetWith,
    maskSelect, getSlopes, olsBeta, olsResid, solveL, gramL, xtyL, detL,
    detFuel, replaceCol, ldot, validRows, validCount, is_stable_ccdc_col,
    ltDivSqrt, optLtDivSqrt, nanMeanSq, validResiduals, yearLt, td64Years,
    List.filterMap_cons, List.range_succ]

theorem ccdc_colState_partition_witness :
    (stableAt (initState 2 [[1, 0], [1, 1], [1, 2], [1, 3]]
        [[some 0, some 0, some 0, some 0], [some 0, none, none, none]]
        [0, 1, 2, 800]) 1 = true →
      enoughAt (initState 2 [[1, 0], [1, 1], [1, 2], [1, 3]]
        [[some 0, some 0, some 0, some 0], [some 0, none, none, none]]
        [0, 1, 2, 800]) 1 = true) ∧
    (colState (initState 2 [[1, 0], [1, 1], [1, 2], [1, 3]]
        [[some 0, some 0, some 0, some 0], [some 0, none, none, none]]
        [0, 1, 2, 800]) 1 = .stable →
      colState (⟨[false, false], [false, false], [some [0, 0], none],
          [[some 0, some 0, some 0, some 0], [none, none, none, none]],
          [], [[1, 2], [1, 3]], [2, 800]⟩ : CState) 1 = .stable) ∧
    (colState (initState 2 [[1, 0], [1, 1], [1, 2], [1, 3]]
        [[some 0, some 0, some 0, some 0], [some 0, none, none, none]]
        [0, 1, 2, 800]) 1 = .insufficient →
      colState (⟨[false, false], [false, false], [some [0, 0], none],
          [[some 0, some 0, some 0, some 0], [none, none, none, none]],
          [], [[1, 2], [1, 3]], [2, 800]⟩ : CState) 1 = .insufficient) :=
  ccdc_colState_partition ⟨2, 3, 800⟩ [[1, 0], [1, 1], [1, 2], [1, 3]]
    [[some 0, some 0, some 0, some 0], [some 0, none, none, none]]
    [0, 1, 2, 800] 0
    (initState 2 [[1, 0], [1, 1], [1, 2], [1, 3]]
      [[some 0, some 0, some 0, some 0], [some 0, none, none, none]]
      [0, 1, 2, 800])
    ⟨[false, false], [false, false], [some [0, 0], none],
      [[some 0, some 0, some 0, some 0], [none, none, none, none]],
      [], [[1, 2], [1, 3]], [2, 800]⟩ 1
    (by decide)
    (initState_wf 2 3 800 [[1, 0], [1, 1], [1, 2], [1, 3]]
      [[some 0, some 0, some 0, some 0], [some 0, none, none, none]]
      [0, 1, 2, 800] rfl (by decide))
    ccdcStep_concrete (by decide)

/-! ## Outlier screeners — `outliers.py`

`shewhart` and `ccdc_rirls` receive the caller's dependent matrix `y`,
write `np.nan` into its flagged entries **in place**, and `return y`.  To
make buffer identity and mutation expressible, a numpy array variable is
modelled as an address into a store of 2-D buffers: a screener takes the
store and the address of the caller's `y` and returns the new store
together with the address of the array it returns. -/

/-- A heap of 2-D float buffers, one per address. -/
def Store : Type := ℕ → List (List (Option ℚ))

/-- Writing a buffer back to the store at address `a`. -/
def storeSet (σ : Store) (a : ℕ) (v : List (List (Option ℚ))) : Store :=
  fun b => if b = a then v else σ b

/-- `np.nanstd(residuals, axis=0) ** 2` for one column: the mean squared
deviation from the mean over the valid entries (`ddof = 0`).  The standard
deviation itself is irrational; `absGtMulSqrt` compares against it without
leaving ℚ. -/
def nanVar (col : List (Option ℚ)) : ℚ :=
  ((validResiduals col).map fun r =>
    (r - (validResiduals col).sum / ((validResiduals col).length : ℚ)) ^ 2).sum
    / ((validResiduals col).length : ℚ)

/-- The test `|r| > L * Real.sqrt v` of line 44, decided in ℚ (for the
variance `v ≥ 0`): when `L ≥ 0` both sides are nonnegative and the test is
equivalent to `L² v < r²`; when `L < 0` the right side is negative unless
`v = 0`, where it is `|r| > 0`.  `absGtMulSqrt_iff` proves the
equivalence. -/
def absGtMulSqrt (L v r : ℚ) : Bool :=
  if 0 ≤ L then decide (L ^ 2 * v < r ^ 2)
  else if v = 0 then decide (r ≠ 0) else true

/-- One column of `shewhart` (outliers.py lines 42-45): OLS residuals of
the column, their `nanstd`, the mask `np.abs(residuals) > L * sigma`
(false at missing residuals, as every numpy comparison with NaN), and the
masked write `y[mask] = np.nan`. -/
def shewhartCol (p : ℕ) (Xrows : List (List ℚ)) (L : ℚ)
    (col : List (Option ℚ)) : List (Option ℚ) :=
  List.zipWith
    (fun o ro =>
      match ro with
      | none => o
      | some r => if absGtMulSqrt L (nanVar (olsResid p Xrows col)) r
                  then none else o)
    col (olsResid p Xrows col)

/-- `shewhart(X, y, L)` (outliers.py lines 26-45): fits every column by
OLS, flags entries whose residual exceeds `L` standard deviations, writes
`np.nan` into the flagged entries of the caller's buffer and returns that
same buffer. -/
def shewhart (p : ℕ) (Xrows : List (List ℚ)) (L : ℚ) (σ : Store)
    (ya : ℕ) : Store × ℕ :=
  (storeSet σ ya ((σ ya).map (shewhartCol p Xrows L)), ya)

/-- The outlier test of outliers.py lines 74-75 on one observation:
`g_residuals > 0.04 * scaling_factor  OR  s_residuals < -0.04 *
scaling_factor`; a missing (NaN) residual compares false. -/
def ccdcOutlier (sf : ℚ) (g s : Option ℚ) : Bool :=
  (match g with
   | none => false
   | some gv => decide (4 / 100 * sf < gv)) ||
  (match s with
   | none => false
   | some sv => decide (sv < -(4 / 100) * sf))

/-- The outlier test the claim describes, for comparison: two-sided
absolute-value tests at `±0.04 * scaling_factor` on both bands, combined
by OR. -/
def claimOutlier (sf : ℚ) (g s : Option ℚ) : Bool :=
  (match g with
   | none => false
   | some gv => decide (4 / 100 * sf < |gv|)) ||
  (match s with
   | none => false
   | some sv => decide (4 / 100 * sf < |sv|))

/-- `ccdc_rirls(X, y, green, swir, scaling_factor)` (outliers.py lines
48-83).  `nrt.fit_methods.rirls` is not under `src/` and enters only
through its residual matrix, so the robust fit is a parameter giving each
band column's residual column; `green` and `swir` are already in the flat
(time × pixels) layout the function reshapes its 3-D inputs into.  The
mask of lines 74-75 is applied to the caller's buffer in place and that
buffer is returned. -/
def ccdc_rirls
    (rirlsResid : List (List ℚ) → List (Option ℚ) → List (Option ℚ))
    (X : List (List ℚ)) (green swir : List (List (Option ℚ))) (sf : ℚ)
    (σ : Store) (ya : ℕ) : Store × ℕ :=
  (storeSet σ ya
    (List.zipWith
      (fun col mcol => List.zipWith (fun o m => if m then none else o) col mcol)
      (σ ya)
      (List.zipWith (fun gc sc => List.zipWith (ccdcOutlier sf) gc sc)
        (green.map (rirlsResid X)) (swir.map (rirlsResid X)))), ya)

theorem absGtMulSqrt_iff (L v r : ℚ) (hv : 0 ≤ v) :
    absGtMulSqrt L v r = true ↔
      (L : ℝ) * Real.sqrt (v : ℚ) < |(r : ℝ)| := by
  rw [absGtMulSqrt]
  by_cases hL : 0 ≤ L
  · rw [if_pos hL, decide_eq_true_eq]
    have h1 : 0 ≤ (L : ℝ) * Real.sqrt (v : ℚ) :=
      mul_nonneg (by exact_mod_cast hL) (Real.sqrt_nonneg _)
    have h2 : ((L : ℝ) * Real.sqrt (v : ℚ)) ^ 2 = (L : ℝ) ^ 2 * (v : ℚ) := by
      rw [mul_pow, Real.sq_sqrt (by exact_mod_cast hv)]
    constructor
    · intro h
      have h3 : ((L : ℝ) * Real.sqrt (v : ℚ)) ^ 2 < |(r : ℝ)| ^ 2 := by
        rw [h2, sq_abs]
        exact_mod_cast h
      by_contra hc
      push_neg at hc
      exact absurd (pow_le_pow_left (abs_nonneg _) hc 2) (not_le.2 h3)
    · intro h
      have h3 : ((L : ℝ) * Real.sqrt (v : ℚ)) ^ 2 < |(r : ℝ)| ^ 2 := by
        have := pow_lt_pow_left h h1 (by norm_num : (2 : ℕ) ≠ 0)
        exact this
      rw [h2, sq_abs] at h3
      exact_mod_cast h3
  · rw [if_neg hL]
    have hLneg : (L : ℝ) < 0 := by
      rw [not_le] at hL
      exact_mod_cast hL
    by_cases hv0 : v = 0
    · rw [if_pos hv0, decide_eq_true_eq]
      subst hv0
      rw [Rat.cast_zero, Real.sqrt_zero, mul_zero]
      rw [abs_pos]
      exact Rat.cast_ne_zero.symm
    · rw [if_neg hv0]
      have hvpos : (0 : ℝ) < (v : ℚ) := by
        have : (0 : ℚ) < v := lt_of_le_of_ne hv (Ne.symm hv0)
        exact_mod_cast this
      have : (L : ℝ) * Real.sqrt (v : ℚ) < 0 :=
        mul_neg_of_neg_of_pos hLneg (Real.sqrt_pos.2 hvpos)
      exact iff_of_true rfl (lt_of_lt_of_le this (abs_nonneg _))

/-- C9 (amended): the outlier screeners operate **in place**: `shewhart`
and `ccdc_rirls` both return the very buffer the caller passed as `y` (the
same store address, not a new allocation), after overwriting its flagged
entries — for `shewhart`, every column of the caller's buffer is replaced
by its screened column — while every buffer at any other address is left
untouched. -/
theorem screeners_inplace (p : ℕ) (Xrows : List (List ℚ)) (L sf : ℚ)
    (rirlsResid : List (List ℚ) → List (Option ℚ) → List (Option ℚ))
    (X : List (List ℚ)) (green swir : List (List (Option ℚ)))
    (σ : Store) (ya : ℕ) :
    ((shewhart p Xrows L σ ya).2 = ya ∧
      (shewhart p Xrows L σ ya).1 ya = (σ ya).map (shewhartCol p Xrows L) ∧
      ∀ b, b ≠ ya → (shewhart p Xrows L σ ya).1 b = σ b) ∧
    ((ccdc_rirls rirlsResid X green swir sf σ ya).2 = ya ∧
      ∀ b, b ≠ ya → (ccdc_rirls rirlsResid X green swir sf σ ya).1 b = σ b) := by
  refine ⟨⟨rfl, ?_, ?_⟩, rfl, ?_⟩
  · show storeSet σ ya ((σ ya).map (shewhartCol p Xrows L)) ya = _
    rw [storeSet, if_pos rfl]
  · intro b hb
    show storeSet σ ya ((σ ya).map (shewhartCol p Xrows L)) b = σ b
    rw [storeSet, if_neg hb]
  · intro b hb
    show storeSet σ ya _ b = σ b
    rw [storeSet, if_neg hb]

/-- The aliasing counterexample: `shewhart` on a single column
`[100, 0, 0, 0]` against an intercept-only design with `L = 1` returns the
caller's own address, and the caller's buffer afterwards holds the screened
column `[NaN, 0, 0, 0]` — it was modified in place, and the returned array
is not a new allocation. -/
theorem shewhart_claim_false :
    (shewhart 1 [[1], [1], [1], [1]] 1
        (fun _ => [[some 100, some 0, some 0, some 0]]) 0).2 = 0 ∧
    (shewhart 1 [[1], [1], [1], [1]] 1
        (fun _ => [[some 100, some 0, some 0, some 0]]) 0).1 0
      = [[none, some 0, some 0, some 0]] ∧
    ([[none, some 0, some 0, some 0]] : List (List (Option ℚ)))
      ≠ [[some 100, some 0, some 0, some 0]] := by
  refine ⟨rfl, ?_, by simp⟩
  norm_num [shewhart, shewhartCol, storeSet, olsResid, olsBeta, solveL,
    gramL, xtyL, detL, detFuel, replaceCol, ldot, validRows, nanVar,
    validResiduals, absGtMulSqrt, List.filterMap_cons, List.range_succ]

/-- C10 (amended): `ccdc_rirls` flags an observation exactly when the
green-band robust residual exceeds `+0.04 * scaling_factor` or the
SWIR-band robust residual lies below `-0.04 * scaling_factor` — two
one-sided tests combined by OR, not two-sided absolute-value tests — with
missing residuals never flagging; it sets exactly the flagged entries of
the dependent matrix to the missing sentinel and keeps every other entry. -/
theorem ccdc_rirls_pointwise
    (rirlsResid : List (List ℚ) → List (Option ℚ) → List (Option ℚ))
    (X : List (List ℚ)) (green swir : List (List (Option ℚ))) (sf : ℚ)
    (σ : Store) (ya i j : ℕ)
    (hgl : green.length = (σ ya).length)
    (hsl : swir.length = (σ ya).length)
    (hi : i < (σ ya).length)
    (hrg : (rirlsResid X (green.getD i [])).length
      = ((σ ya).getD i []).length)
    (hrs : (rirlsResid X (swir.getD i [])).length
      = ((σ ya).getD i []).length)
    (hj : j < ((σ ya).getD i []).length) :
    ((((ccdc_rirls rirlsResid X green swir sf σ ya).1 ya).getD i []).getD j none
      = if ccdcOutlier sf ((rirlsResid X (green.getD i [])).getD j none)
             ((rirlsResid X (swir.getD i [])).getD j none) = true
        then none
        else ((σ ya).getD i []).getD j none) ∧
    (∀ g sv : ℚ, ccdcOutlier sf (some g) (some sv) = true ↔
        (4 / 100 * sf < g ∨ sv < -(4 / 100) * sf)) ∧
    (∀ so, ccdcOutlier sf none so = true ↔
        ∃ sv, so = some sv ∧ sv < -(4 / 100) * sf) := by
  refine ⟨?_, ?_, ?_⟩
  · have hres : ((ccdc_rirls rirlsResid X green swir sf σ ya).1 ya)
        = List.zipWith
            (fun col mcol =>
              List.zipWith (fun o m => if m then none else o) col mcol)
            (σ ya)
            (List.zipWith (fun gc sc => List.zipWith (ccdcOutlier sf) gc sc)
              (green.map (rirlsResid X)) (swir.map (rirlsResid X))) := by
      show storeSet σ ya _ ya = _
      rw [storeSet, if_pos rfl]
    rw [hres]
    have hml : (List.zipWith (fun gc sc => List.zipWith (ccdcOutlier sf) gc sc)
        (green.map (rirlsResid X)) (swir.map (rirlsResid X))).length
        = (σ ya).length := by
      rw [List.length_zipWith, List.length_map, List.length_map, hgl, hsl,
        min_self]
    rw [zipWith_getD _ (σ ya) _ i hi hml.symm [] []]
    have hgi : i < (green.map (rirlsResid X)).length := by
      rw [List.length_map, hgl]
      exact hi
    rw [zipWith_getD _ (green.map (rirlsResid X)) (swir.map (rirlsResid X)) i
      hgi (by rw [List.length_map, List.length_map, hgl, hsl]) [] []]
    rw [map_getD _ green i (by rw [hgl]; exact hi) [] []]
    rw [map_getD _ swir i (by rw [hsl]; exact hi) [] []]
    have hmcl : (List.zipWith (ccdcOutlier sf) (rirlsResid X (green.getD i []))
        (rirlsResid X (swir.getD i []))).length = ((σ ya).getD i []).length := by
      rw [List.length_zipWith, hrg, hrs, min_self]
    rw [zipWith_getD _ ((σ ya).getD i []) _ j hj hmcl.symm none false]
    rw [zipWith_getD (ccdcOutlier sf) (rirlsResid X (green.getD i []))
      (rirlsResid X (swir.getD i [])) j (by rw [hrg]; exact hj)
      (by rw [hrg, hrs]) none none]
  · intro g sv
    rw [ccdcOutlier]
    simp only [Bool.or_eq_true, decide_eq_true_eq]
  · intro so
    cases so with
    | none =>
        rw [ccdcOutlier]
        simp
    | some sv =>
        rw [ccdcOutlier]
        simp only [Bool.false_or, decide_eq_true_eq]
        constructor
        · intro h
          exact ⟨sv, rfl, h⟩
        · rintro ⟨sv2, h1, h2⟩
          injection h1 with h1
          rw [h1]
          exact h2

theorem ccdc_rirls_pointwise_witness :
    ((((ccdc_rirls (fun _ c => c) [[1]] [[some (-1)]] [[some 0]] 1
          (fun _ => [[some 5]]) 0).1 0).getD 0 []).getD 0 none
      = if ccdcOutlier 1
            (((fun (_ : List (List ℚ)) (c : List (Option ℚ)) => c) [[1]]
                (([[some (-1)]] : List (List (Option ℚ))).getD 0 [])).getD 0 none)
            (((fun (_ : List (List ℚ)) (c : List (Option ℚ)) => c) [[1]]
                (([[some 0]] : List (List (Option ℚ))).getD 0 [])).getD 0 none) = true
        then none
        else ((((fun _ => [[some 5]]) : Store) 0).getD 0 []).getD 0 none) ∧
    (∀ g sv : ℚ, ccdcOutlier 1 (some g) (some sv) = true ↔
        (4 / 100 * 1 < g ∨ sv < -(4 / 100) * 1)) ∧
    (∀ so, ccdcOutlier 1 none so = true ↔
        ∃ sv, so = some sv ∧ sv < -(4 / 100) * 1) :=
  ccdc_rirls_pointwise (fun _ c => c) [[1]] [[some (-1)]] [[some 0]] 1
    (fun _ => [[some 5]]) 0 0 0 rfl rfl (by decide) rfl rfl (by decide)

/-- The threshold counterexample: with `scaling_factor = 1`, a green-band
residual of `-1` and a SWIR-band residual of `0`, the claim's two-sided
test `|residual| > 0.04` flags the observation, but the code's one-sided
tests do not, and `ccdc_rirls` leaves the entry untouched. -/
theorem ccdc_rirls_claim_false :
    claimOutlier 1 (some (-1)) (some 0) = true ∧
    ccdcOutlier 1 (some (-1)) (some 0) = false ∧
    ((ccdc_rirls (fun _ c => c) [[1]] [[some (-1)]] [[some 0]] 1
        (fun _ => [[some 5]]) 0).1 0 = [[some 5]]) := by
  refine ⟨?_, ?_, ?_⟩
  · norm_num [claimOutlier]
  · norm_num [ccdcOutlier]
  · norm_num [ccdc_rirls, ccdcOutlier, storeSet]

end Nrt
